import Mathlib

/-!
Shallow embedding of the `gx` dependency-intelligence tool's core:
the dependency-graph builder (`internal/graph/builder.go`), the
in-memory TTL cache (`internal/proxy/cache.go`) and the module-proxy
client (`internal/proxy/client.go`).

Modelling conventions:
* Go heap pointers (`*Node`) become indices into an explicit heap list;
  mutating a node through a pointer becomes `List.set` at its index.
* Go maps become association lists where the most recent binding is at
  the front; `mapGet` returns the first binding, which matches Go map
  lookup because an insert shadows every older binding for the key.
* Wall-clock instants and durations are integers passed explicitly.
* The network is an environment: a responder function standing for the
  HTTP round trip (already collapsing status / transport errors into
  `Except`), and a decoder standing for `json.Unmarshal`.
-/

set_option autoImplicit false

namespace GxSpec

/-- Association-list lookup: first (most recent) binding wins, which is
exactly the observable behaviour of a Go map under insert-shadowing. -/
def mapGet {α : Type} (m : List (String × α)) (k : String) : Option α :=
  match m with
  | [] => none
  | (k', v) :: rest => if k = k' then some v else mapGet rest k

theorem mapGet_nil {α : Type} (k : String) : mapGet ([] : List (String × α)) k = none := rfl

theorem mapGet_cons_eq {α : Type} (m : List (String × α)) (k : String) (v : α) :
    mapGet ((k, v) :: m) k = some v := by simp [mapGet]

theorem mapGet_cons_ne {α : Type} (m : List (String × α)) (k k' : String) (v : α)
    (h : k ≠ k') : mapGet ((k', v) :: m) k = mapGet m k := by simp [mapGet, h]

theorem mapGet_eq_none_of_not_mem {α : Type} (m : List (String × α)) (k : String)
    (h : k ∉ m.map Prod.fst) : mapGet m k = none := by
  induction m with
  | nil => rfl
  | cons kv rest ih =>
    simp only [List.map_cons, List.mem_cons] at h
    push_neg at h
    simpa [mapGet, h.1] using ih h.2

theorem mapGet_append_of_none {α : Type} (m₁ m₂ : List (String × α)) (k : String)
    (h : mapGet m₁ k = none) : mapGet (m₁ ++ m₂) k = mapGet m₂ k := by
  induction m₁ with
  | nil => rfl
  | cons kv rest ih =>
    by_cases hk : k = kv.1
    · subst hk
      simp [mapGet] at h
    · have h' : mapGet rest k = none := by simpa [mapGet, hk] using h
      simpa [mapGet, hk] using ih h'

/-! ## Dependency graph data model (`internal/graph/builder.go`)

`Node` mirrors the Go struct; `Children []*Node` becomes a list of heap
indices.  `Graph` holds the heap (index = identity of the Go pointer),
the `Nodes map[string]*Node` index, and the root's heap index. -/

/-- Mirror of Go's `graph.Node` with child pointers as heap indices. -/
structure Node where
  path : String
  version : String
  direct : Bool
  children : List Nat
deriving Repr, DecidableEq

instance : Inhabited Node := ⟨⟨"", "", false, []⟩⟩

/-- Mirror of Go's `graph.Graph`: heap of nodes plus the string index. -/
structure Graph where
  heap : List Node
  nodes : List (String × Nat)
  rootId : Nat
deriving Repr, DecidableEq

/-- Dereference a node pointer (out-of-range reads give the default node;
the builder never produces such indices). -/
def Graph.nodeOf (g : Graph) (i : Nat) : Node := g.heap.getD i default

/-- Mirror of a `*modfile.Require` record: `Mod.Path`, `Mod.Version`, `Indirect`. -/
structure GoRequire where
  path : String
  version : String
  indirect : Bool
deriving Repr, DecidableEq

instance : Inhabited GoRequire := ⟨⟨"", "", false⟩⟩

/-- The `path + "@" + version` identity key used throughout `builder.go`. -/
def reqKey (path version : String) : String := path ++ "@" ++ version

/-- Mirror of `modfile.Parser` as consumed by the builder: the declared
module path and the requirement records in file order. -/
structure GoParser where
  modulePath : String
  requires : List GoRequire
deriving Repr, DecidableEq

/-- Mirror of `Parser.DirectRequires`: requirements with `Indirect == false`, in order. -/
def GoParser.directRequires (p : GoParser) : List GoRequire :=
  p.requires.filter (fun r => !r.indirect)

/-- Mirror of `Parser.IndirectRequires`: requirements with `Indirect == true`, in order. -/
def GoParser.indirectRequires (p : GoParser) : List GoRequire :=
  p.requires.filter (fun r => r.indirect)

/-- Set a node's `Direct` field to `true` in place (the `node.Direct = true`
assignment inside `getOrCreateNode`). -/
def Graph.setDirectTrue (g : Graph) (i : Nat) : Graph :=
  { g with heap := g.heap.set i { g.nodeOf i with direct := true } }

/-- Append a child pointer to a node's `Children` slice in place. -/
def Graph.appendChild (g : Graph) (i c : Nat) : Graph :=
  { g with heap := g.heap.set i { g.nodeOf i with children := (g.nodeOf i).children ++ [c] } }

/-- Mirror of `Graph.getOrCreateNode`: look the `path@version` key up in the
index; on a hit optionally promote `Direct` and return the existing pointer;
on a miss allocate a node and register it under both the key and the bare path. -/
def Graph.getOrCreateNode (g : Graph) (path version : String) (direct : Bool) :
    Graph × Nat :=
  let nodeKey := reqKey path version
  match mapGet g.nodes nodeKey with
  | some nid => (if direct then g.setDirectTrue nid else g, nid)
  | none =>
    let nid := g.heap.length
    let node : Node := ⟨path, version, direct, []⟩
    ({ g with
        heap := g.heap ++ [node],
        nodes := (path, nid) :: (nodeKey, nid) :: g.nodes }, nid)

/-- Registry responder seen by the builder: `GetModFile` followed by
`xmodfile.Parse`, collapsed into one map from (path, version) to the
parsed requirement records, `none` standing for any fetch or parse error. -/
def Registry : Type := String → String → Option (List GoRequire)

/-- Result of a recursive build step: the graph, the visited set, and the
log of registry expansions performed, each tagged with the recursion depth
at which `GetModFile` was called.  The log is pure instrumentation: it
records the network calls so that observational claims (no key expanded
twice, no expansion at or beyond the maximum depth) can be stated. -/
def BCRes : Type := Graph × List String × List (String × Nat)

/-- Body of `Graph.buildChildren`, with the recursion driven by the
remaining depth budget `fuel = maxDepth - depth` so that the definition is
structurally recursive (Go's `depth >= maxDepth` guard is exactly
`fuel = 0`, and the recursive call at `depth + 1` is exactly the call at
`fuel - 1`; the wrapper `Graph.buildChildren` restores the source
signature).  Stop when the budget is exhausted or the node's
`path@version` key is already visited; otherwise mark it visited, fetch
and parse its manifest (`none` = swallowed fetch/parse error), and fold
the Go `for` loop over the requirement records: skip indirect ones, share
child nodes through `getOrCreateNode`, skip a child already present on
this parent by path, otherwise attach it and recurse one level deeper. -/
def Graph.buildChildrenF (reg : Registry) : Nat → Graph → Nat → List String → Nat → BCRes
  | 0, g, _, visited, _ => (g, visited, [])
  | fuel + 1, g, nid, visited, depth =>
    let node := g.nodeOf nid
    let nodeKey := reqKey node.path node.version
    if nodeKey ∈ visited then (g, visited, [])
    else
      match reg node.path node.version with
      | none => (g, nodeKey :: visited, [(nodeKey, depth)])
      | some reqs =>
        reqs.foldl (fun s req =>
          if req.indirect then s
          else
            let pr := s.1.getOrCreateNode req.path req.version false
            let g1 := pr.1
            let child := pr.2
            let alreadyChild := (g1.nodeOf nid).children.any
              (fun c => (g1.nodeOf c).path == (g1.nodeOf child).path)
            if alreadyChild then (g1, s.2.1, s.2.2)
            else
              let g2 := g1.appendChild nid child
              let rc := Graph.buildChildrenF reg fuel g2 child s.2.1 (depth + 1)
              (rc.1, rc.2.1, s.2.2 ++ rc.2.2))
          (g, nodeKey :: visited, [(nodeKey, depth)])

/-- Mirror of `Graph.buildChildren` with the source's `depth`/`maxDepth`
signature; see `Graph.buildChildrenF`. -/
def Graph.buildChildren (reg : Registry) (g : Graph) (nid : Nat)
    (visited : List String) (depth maxDepth : Nat) : BCRes :=
  Graph.buildChildrenF reg (maxDepth - depth) g nid visited depth

/-- One iteration of the direct-requirement loop in the proxy-less branch of
`BuildWithProxy`: create or fetch the child node and append it to the root's
children. -/
def addDirect (g : Graph) (req : GoRequire) : Graph :=
  let pr := g.getOrCreateNode req.path req.version true
  pr.1.appendChild pr.1.rootId pr.2

/-- The proxy-less indirect-requirement loop: register each indirect
requirement as a standalone node, discarding the returned pointer. -/
def addIndirect (g : Graph) (req : GoRequire) : Graph :=
  (g.getOrCreateNode req.path req.version false).1

/-- The proxy branch's direct-requirement loop of `BuildWithProxy`: for each
direct requirement create the child, attach it to the root, and recursively
expand it with the shared visited set, `depth = 0`, `maxDepth = 10`.
Returns the graph, the final visited set, and the concatenated expansion log. -/
def buildDirects (reg : Registry) (g : Graph) (visited : List String) :
    List GoRequire → BCRes
  | [] => (g, visited, [])
  | req :: rest =>
    let pr := g.getOrCreateNode req.path req.version true
    let g1 := pr.1.appendChild pr.1.rootId pr.2
    let rc := Graph.buildChildren reg g1 pr.2 visited 0 10
    let rl := buildDirects reg rc.1 rc.2.1 rest
    (rl.1, rl.2.1, rc.2.2 ++ rl.2.2)

/-- Mirror of `BuildWithProxy`: build the root, register it under its bare
path, then either attach one level of direct requirements and register the
indirect ones (no proxy), or recursively expand every direct requirement
against the registry (proxy present).  The second component is the
expansion log described at `BCRes`; the Go function has no such return
value, it only instruments the registry calls. -/
def BuildWithProxy (p : GoParser) (proxyClient : Option Registry) :
    Graph × List (String × Nat) :=
  let root : Node := ⟨p.modulePath, "", true, []⟩
  let g : Graph := ⟨[root], [(p.modulePath, 0)], 0⟩
  match proxyClient with
  | none =>
    let g1 := p.directRequires.foldl addDirect g
    let g2 := p.indirectRequires.foldl addIndirect g1
    (g2, [])
  | some reg =>
    let r := buildDirects reg g [] p.directRequires
    (r.1, r.2.2)

/-- Mirror of `Build`: `BuildWithProxy` with no proxy client. -/
def Build (p : GoParser) : Graph := (BuildWithProxy p none).1

/-- Mirror of the closure `dfs` inside `Graph.FindPaths`.  The Go closure
mutates `visited` and `currentPath` but restores both before returning, so
passing them as arguments is an exact translation.  Go's recursion
terminates because each level adds a distinct node path to `visited`; here
that bound is made explicit as structural fuel, and the wrapper supplies
`heap.length + 1`, which the visited discipline can never exhaust. -/
def Graph.dfsPaths (g : Graph) (targetPath : String) :
    Nat → Nat → List String → List String → List (List String)
  | 0, _, _, _ => []
  | fuel + 1, nid, visited, currentPath =>
    let node := g.nodeOf nid
    if node.path ∈ visited then []
    else
      let currentPath := currentPath ++ [node.path]
      let visited := node.path :: visited
      if node.path = targetPath then [currentPath]
      else
        node.children.foldl
          (fun acc c => acc ++ g.dfsPaths targetPath fuel c visited currentPath) []

/-- Mirror of `Graph.FindPaths`: depth-first search from the root with
per-path visited tracking, collecting every root-to-target path. -/
def Graph.FindPaths (g : Graph) (targetPath : String) : List (List String) :=
  g.dfsPaths targetPath (g.heap.length + 1) g.rootId [] []

/-! ## Expansion-log invariants of the recursive build

`ExpansionSpec visited d mD r` records what one recursive call guarantees:
the final visited set is exactly the freshly expanded keys (newest first)
on top of the initial one, no key is expanded twice, and every expansion
happened at a recursion depth in `[d, mD)` on a key that was not yet
visited when the call started. -/
def ExpansionSpec (visited : List String) (d mD : Nat) (r : BCRes) : Prop :=
  r.2.1 = (r.2.2.map Prod.fst).reverse ++ visited ∧
  (r.2.2.map Prod.fst).Nodup ∧
  ∀ e ∈ r.2.2, d ≤ e.2 ∧ e.2 < mD ∧ e.1 ∉ visited

theorem expansionSpec_id (g : Graph) (visited : List String) (d mD : Nat) :
    ExpansionSpec visited d mD (g, visited, []) := by
  refine ⟨by simp, by simp, ?_⟩
  intro e he
  simp at he

/-- Sequencing two recursive calls preserves the expansion invariants. -/
theorem expansionSpec_seq {visited : List String} {d₁ d₂ d mD : Nat}
    {r₁ r₂ : BCRes} (h₁ : ExpansionSpec visited d₁ mD r₁)
    (h₂ : ExpansionSpec r₁.2.1 d₂ mD r₂)
    (hd₁ : d ≤ d₁) (hd₂ : d ≤ d₂) (g : Graph) :
    ExpansionSpec visited d mD (g, r₂.2.1, r₁.2.2 ++ r₂.2.2) := by
  obtain ⟨hv₁, hn₁, hp₁⟩ := h₁
  obtain ⟨hv₂, hn₂, hp₂⟩ := h₂
  refine ⟨?_, ?_, ?_⟩
  · simp only [hv₂, hv₁, List.map_append, List.reverse_append, List.append_assoc]
  · simp only [List.map_append]
    refine List.Nodup.append hn₁ hn₂ ?_
    intro a ha₁ ha₂
    obtain ⟨e₂, he₂, rfl⟩ := List.mem_map.mp ha₂
    have h3 := (hp₂ e₂ he₂).2.2
    rw [hv₁] at h3
    exact h3 (List.mem_append.mpr (Or.inl (List.mem_reverse.mpr ha₁)))
  · intro e he
    rcases List.mem_append.mp he with he₁ | he₂
    · obtain ⟨ha, hb, hc⟩ := hp₁ e he₁
      exact ⟨le_trans hd₁ ha, hb, hc⟩
    · obtain ⟨ha, hb, hc⟩ := hp₂ e he₂
      rw [hv₁] at hc
      refine ⟨le_trans hd₂ ha, hb, fun hmem => hc ?_⟩
      simp only [List.mem_append]
      right
      exact hmem

/-- Invariants of `buildChildrenF`, by induction on the remaining depth
budget: every expansion it logs lies at a depth in `[depth, depth + fuel)`,
on a key not yet visited, and no key is logged twice. -/
theorem buildChildrenF_spec (fuel : Nat) :
    ∀ (reg : Registry) (g : Graph) (nid : Nat) (visited : List String) (depth : Nat),
      ExpansionSpec visited depth (depth + fuel)
        (Graph.buildChildrenF reg fuel g nid visited depth) := by
  induction fuel with
  | zero =>
    intro reg g nid visited depth
    exact expansionSpec_id g visited depth _
  | succ fuel ih =>
    intro reg g nid visited depth
    rw [Graph.buildChildrenF]
    by_cases hv : reqKey (g.nodeOf nid).path (g.nodeOf nid).version ∈ visited
    · simp only [hv, if_true]
      exact expansionSpec_id g visited depth _
    · simp only [hv, if_false]
      cases hreg : reg (g.nodeOf nid).path (g.nodeOf nid).version with
      | none =>
        refine ⟨by simp, by simp, ?_⟩
        intro e he
        simp only [List.mem_singleton] at he
        subst he
        exact ⟨le_refl depth, by omega, hv⟩
      | some reqs =>
        dsimp only
        have hstart : ExpansionSpec visited depth (depth + (fuel + 1))
            (g, reqKey (g.nodeOf nid).path (g.nodeOf nid).version :: visited,
              [(reqKey (g.nodeOf nid).path (g.nodeOf nid).version, depth)]) := by
          refine ⟨by simp, by simp, ?_⟩
          intro e he
          simp only [List.mem_singleton] at he
          subst he
          exact ⟨le_refl depth, by omega, hv⟩
        generalize (g, reqKey (g.nodeOf nid).path (g.nodeOf nid).version :: visited,
          ([(reqKey (g.nodeOf nid).path (g.nodeOf nid).version, depth)] :
            List (String × Nat))) = s at hstart ⊢
        clear hreg hv
        induction reqs generalizing s with
        | nil => exact hstart
        | cons req rest ihr =>
          rw [List.foldl_cons]
          refine ihr _ ?_
          by_cases hind : req.indirect
          · simpa [hind] using hstart
          · simp only [hind, Bool.false_eq_true, if_false]
            generalize s.1.getOrCreateNode req.path req.version false = pr
            split
            · exact ⟨hstart.1, hstart.2.1, hstart.2.2⟩
            · have hrc := ih reg (pr.1.appendChild nid pr.2) pr.2 s.2.1 (depth + 1)
              have hrc' : ExpansionSpec s.2.1 (depth + 1) (depth + (fuel + 1))
                  (Graph.buildChildrenF reg fuel (pr.1.appendChild nid pr.2) pr.2
                    s.2.1 (depth + 1)) := by
                have : depth + 1 + fuel = depth + (fuel + 1) := by omega
                rwa [this] at hrc
              exact expansionSpec_seq hstart hrc' (le_refl depth) (Nat.le_succ depth) _

/-- Invariants of the top-level direct-requirement loop of `BuildWithProxy`. -/
theorem buildDirects_spec :
    ∀ (ds : List GoRequire) (reg : Registry) (g : Graph) (visited : List String),
      ExpansionSpec visited 0 10 (buildDirects reg g visited ds) := by
  intro ds
  induction ds with
  | nil =>
    intro reg g visited
    exact expansionSpec_id g visited 0 10
  | cons req rest ih =>
    intro reg g visited
    rw [buildDirects]
    generalize g.getOrCreateNode req.path req.version true = pr
    have hrc : ExpansionSpec visited 0 10
        (Graph.buildChildren reg (pr.1.appendChild pr.1.rootId pr.2) pr.2 visited 0 10) :=
      buildChildrenF_spec 10 reg (pr.1.appendChild pr.1.rootId pr.2) pr.2 visited 0
    have hrl := ih reg
      (Graph.buildChildren reg (pr.1.appendChild pr.1.rootId pr.2) pr.2 visited 0 10).1
      (Graph.buildChildren reg (pr.1.appendChild pr.1.rootId pr.2) pr.2 visited 0 10).2.1
    exact expansionSpec_seq hrc hrl (le_refl 0) (le_refl 0) _

/-- Registry serving the spec's cyclic chain: module `a` requires `b` and
module `b` requires `a`, both pinned at `v1`. -/
def registryCyclic : Registry := fun p _ =>
  if p = "a" then some [⟨"b", "v1", false⟩]
  else if p = "b" then some [⟨"a", "v1", false⟩]
  else none

/-- Local manifest whose single direct requirement enters the cyclic chain. -/
def parserCyclic : GoParser := ⟨"root", [⟨"a", "v1", false⟩]⟩

/-- Registry serving a linear chain `a → a1 → … → a10` together with two
re-entry modules `x` (requiring `a`) and `y` (requiring `x`). -/
def registryChain : Registry := fun p _ =>
  if p = "a" then some [⟨"a1", "v", false⟩]
  else if p = "a1" then some [⟨"a2", "v", false⟩]
  else if p = "a2" then some [⟨"a3", "v", false⟩]
  else if p = "a3" then some [⟨"a4", "v", false⟩]
  else if p = "a4" then some [⟨"a5", "v", false⟩]
  else if p = "a5" then some [⟨"a6", "v", false⟩]
  else if p = "a6" then some [⟨"a7", "v", false⟩]
  else if p = "a7" then some [⟨"a8", "v", false⟩]
  else if p = "a8" then some [⟨"a9", "v", false⟩]
  else if p = "a9" then some [⟨"a10", "v", false⟩]
  else if p = "a10" then some [⟨"a11", "v", false⟩]
  else if p = "x" then some [⟨"a", "v", false⟩]
  else if p = "y" then some [⟨"x", "v", false⟩]
  else none

/-- Local manifest with direct requirements `a`, `x`, `y` in that order. -/
def parserChain : GoParser :=
  ⟨"root", [⟨"a", "v", false⟩, ⟨"x", "v", false⟩, ⟨"y", "v", false⟩]⟩

/-- C1, refuting the final conjunct as stated: against `registryChain` the
built tree contains the root-to-leaf path
`root → y → x → a → a1 → … → a10` with 14 nodes (13 edges), which exceeds
the fixed maximum depth 10 (and even `maxDepth + 1`): a direct requirement
that re-attaches an already-expanded module extends tree paths beyond the
recursion-depth cut, so the maximum root-to-leaf path length is not bounded
by the fixed maximum depth. -/
theorem C1_path_length_counterexample :
    (BuildWithProxy parserChain (some registryChain)).1.FindPaths "a10" =
      [["root", "a", "a1", "a2", "a3", "a4", "a5", "a6", "a7", "a8", "a9", "a10"],
       ["root", "x", "a", "a1", "a2", "a3", "a4", "a5", "a6", "a7", "a8", "a9", "a10"],
       ["root", "y", "x", "a", "a1", "a2", "a3", "a4", "a5", "a6", "a7", "a8", "a9", "a10"]] ∧
    (((BuildWithProxy parserChain (some registryChain)).1.FindPaths "a10").getD 2 []).length
      = 14 := by
  constructor
  · decide
  · decide

/-- C1 (amended): for every registry responder and requirement list,
`BuildWithProxy` terminates (it is a total function), never expands the
same `path@version` key twice within one build (the expansion log's keys
are pairwise distinct), and never performs an expansion at recursion depth
10 or beyond (every logged depth is `< 10`); on the cyclic chain registry
(`a` requires `b` requires `a`) the resulting maximum root-to-leaf path
length is bounded by the fixed maximum depth (all paths have at most three
nodes).  The original claim's universal bound of tree path length by the
maximum depth is false, see `C1_path_length_counterexample`. -/
theorem C1_no_reexpansion_and_depth_bound :
    (∀ (reg : Registry) (p : GoParser),
      ((BuildWithProxy p (some reg)).2.map Prod.fst).Nodup ∧
      ∀ e ∈ (BuildWithProxy p (some reg)).2, e.2 < 10) ∧
    ((BuildWithProxy parserCyclic (some registryCyclic)).1.FindPaths "b"
        = [["root", "a", "b"]] ∧
      (BuildWithProxy parserCyclic (some registryCyclic)).1.FindPaths "a"
        = [["root", "a"]]) := by
  refine ⟨?_, by decide, by decide⟩
  intro reg p
  have h := buildDirects_spec p.directRequires reg
    ⟨[⟨p.modulePath, "", true, []⟩], [(p.modulePath, 0)], 0⟩ []
  obtain ⟨_, hnd, hpr⟩ := h
  constructor
  · simpa [BuildWithProxy] using hnd
  · intro e he
    exact (hpr e (by simpa [BuildWithProxy] using he)).2.1

/-- Witness for `C1_no_reexpansion_and_depth_bound` at the cyclic registry:
the build's expansion log has pairwise-distinct keys and its entry
`("a@v1", 0)` was expanded at depth `0 < 10`. -/
theorem C1_no_reexpansion_witness :
    ((BuildWithProxy parserCyclic (some registryCyclic)).2.map Prod.fst).Nodup ∧
    (("a@v1", 0) : String × Nat).2 < 10 :=
  ⟨(C1_no_reexpansion_and_depth_bound.1 registryCyclic parserCyclic).1,
   (C1_no_reexpansion_and_depth_bound.1 registryCyclic parserCyclic).2
     ("a@v1", 0) (by decide)⟩

/-! ## Node identity and the `Direct` flag (`getOrCreateNode`) -/

/-- The character data of an identity key is the path, the separator, then
the version (`String.append` is list append on the underlying data). -/
theorem reqKey_data (p v : String) : (reqKey p v).data = p.data ++ '@' :: v.data := by
  have h0 : (reqKey p v).data = (p.data ++ ['@']) ++ v.data := rfl
  rw [h0, List.append_assoc]
  rfl

/-- The identity key `p@v` is strictly longer than the bare path `p`,
hence the two index bindings written by one allocation never collide. -/
theorem reqKey_ne_self_path (p v : String) : reqKey p v ≠ p := by
  intro h
  have hd : p.data ++ '@' :: v.data = p.data := by
    rw [← reqKey_data p v, h]
  have hl := congrArg List.length hd
  simp at hl

/-- A string containing no `'@'` is never an identity key. -/
theorem reqKey_ne_of_atFree (p v q : String) (hq : q.data.all (fun c => c != '@') = true)
    : reqKey p v ≠ q := by
  intro h
  have hd : p.data ++ '@' :: v.data = q.data := by
    rw [← reqKey_data p v, h]
  have hmem : '@' ∈ q.data := by
    rw [← hd]
    simp
  simp only [List.all_eq_true] at hq
  simpa using hq '@' hmem

/-- Splitting a list at a separator absent from both prefixes is unambiguous. -/
theorem append_sep_inj {xs as ys bs : List Char}
    (hx : '@' ∉ xs) (ha : '@' ∉ as)
    (h : xs ++ '@' :: ys = as ++ '@' :: bs) : xs = as ∧ ys = bs := by
  induction xs generalizing as with
  | nil =>
    cases as with
    | nil => simpa using h
    | cons a as' =>
      simp only [List.nil_append, List.cons_append, List.cons.injEq] at h
      apply absurd _ ha
      rw [h.1]
      exact List.mem_cons_self a as'
  | cons x xs' ih =>
    cases as with
    | nil =>
      simp only [List.cons_append, List.nil_append, List.cons.injEq] at h
      apply absurd _ hx
      rw [← h.1]
      exact List.mem_cons_self x xs'
    | cons a as' =>
      simp only [List.cons_append, List.cons.injEq] at h
      obtain ⟨rfl, h2⟩ := h
      have hr := ih (fun hm => hx (List.mem_cons_of_mem _ hm))
        (fun hm => ha (List.mem_cons_of_mem _ hm)) h2
      exact ⟨by rw [hr.1], hr.2⟩

/-- On `'@'`-free paths the identity key determines path and version. -/
theorem reqKey_inj (p q v w : String)
    (hp : p.data.all (fun c => c != '@') = true)
    (hq : q.data.all (fun c => c != '@') = true)
    (h : reqKey p v = reqKey q w) : p = q ∧ v = w := by
  have hd : p.data ++ '@' :: v.data = q.data ++ '@' :: w.data := by
    rw [← reqKey_data p v, ← reqKey_data q w, h]
  have hp' : '@' ∉ p.data := by
    simp only [List.all_eq_true] at hp
    intro hm
    simpa using hp '@' hm
  have hq' : '@' ∉ q.data := by
    simp only [List.all_eq_true] at hq
    intro hm
    simpa using hq '@' hm
  obtain ⟨h1, h2⟩ := append_sep_inj hp' hq' hd
  exact ⟨String.ext h1, String.ext h2⟩

/-- A successful association-list lookup comes from a binding in the list. -/
theorem mapGet_mem {α : Type} {m : List (String × α)} {k : String} {v : α}
    (h : mapGet m k = some v) : (k, v) ∈ m := by
  induction m with
  | nil => simp [mapGet] at h
  | cons kv rest ih =>
    obtain ⟨k', v'⟩ := kv
    by_cases hk : k = k'
    · subst hk
      rw [mapGet_cons_eq] at h
      cases h
      exact List.mem_cons_self _ _
    · rw [mapGet_cons_ne _ _ _ _ hk] at h
      exact List.mem_cons_of_mem _ (ih h)

/-- Well-formedness of the graph's string index: every binding points at an
in-heap node and is either that node's bare path or its identity key.  Every
graph the builder constructs satisfies this; it is stated over the binding
list so that it is decidable on concrete graphs. -/
def Graph.WFIndex (g : Graph) : Prop :=
  ∀ b ∈ g.nodes, b.2 < g.heap.length ∧
    (b.1 = (g.nodeOf b.2).path ∨ b.1 = reqKey (g.nodeOf b.2).path (g.nodeOf b.2).version)

instance (g : Graph) : Decidable g.WFIndex := by
  unfold Graph.WFIndex
  infer_instance

/-- All node paths of the graph avoid the `'@'` key separator. -/
def Graph.PathsAtFree (g : Graph) : Prop :=
  ∀ n ∈ g.heap, n.path.data.all (fun c => c != '@') = true

instance (g : Graph) : Decidable g.PathsAtFree := by
  unfold Graph.PathsAtFree
  infer_instance

theorem setDirectTrue_nodes (g : Graph) (i : Nat) : (g.setDirectTrue i).nodes = g.nodes := rfl

theorem setDirectTrue_heap_length (g : Graph) (i : Nat) :
    (g.setDirectTrue i).heap.length = g.heap.length := by
  simp [Graph.setDirectTrue]

/-- C4, first half, in full generality: a second `getOrCreateNode` with the
same `(path, version)` pair returns the pointer the first call returned and
allocates nothing (heap size and index unchanged). -/
theorem getOrCreateNode_same_pair (g : Graph) (p v : String) (d₁ d₂ : Bool) :
    ((g.getOrCreateNode p v d₁).1.getOrCreateNode p v d₂).2 = (g.getOrCreateNode p v d₁).2 ∧
    ((g.getOrCreateNode p v d₁).1.getOrCreateNode p v d₂).1.heap.length
      = (g.getOrCreateNode p v d₁).1.heap.length ∧
    ((g.getOrCreateNode p v d₁).1.getOrCreateNode p v d₂).1.nodes
      = (g.getOrCreateNode p v d₁).1.nodes := by
  cases h₁ : mapGet g.nodes (reqKey p v) with
  | some nid =>
    cases d₁ <;> cases d₂ <;>
      simp [Graph.getOrCreateNode, h₁, Graph.setDirectTrue]
  | none =>
    have h₂ : mapGet ((p, g.heap.length) :: (reqKey p v, g.heap.length) :: g.nodes)
        (reqKey p v) = some (g.heap.length) := by
      rw [mapGet_cons_ne _ _ _ _ (reqKey_ne_self_path p v), mapGet_cons_eq]
    cases d₂ <;> simp [Graph.getOrCreateNode, h₁, h₂, Graph.setDirectTrue]

theorem Graph.nodeOf_mem (g : Graph) {i : Nat} (h : i < g.heap.length) :
    g.nodeOf i ∈ g.heap := by
  unfold Graph.nodeOf
  rw [List.getD_eq_getElem _ _ h]
  exact List.getElem_mem h

theorem setDirectTrue_nodeOf_ne (g : Graph) {i j : Nat} (h : i ≠ j) :
    (g.setDirectTrue i).nodeOf j = g.nodeOf j := by
  simp [Graph.setDirectTrue, Graph.nodeOf, List.getD_eq_getElem?_getD,
    List.getElem?_set_ne h]

theorem setDirectTrue_direct_self (g : Graph) {i : Nat} (h : i < g.heap.length) :
    ((g.setDirectTrue i).nodeOf i).direct = true := by
  simp [Graph.setDirectTrue, Graph.nodeOf, List.getD_eq_getElem?_getD,
    List.getElem?_set_self h]

theorem setDirectTrue_direct_mono (g : Graph) (i j : Nat)
    (h : (g.nodeOf j).direct = true) : ((g.setDirectTrue i).nodeOf j).direct = true := by
  by_cases hij : i = j
  · subst hij
    by_cases hlen : i < g.heap.length
    · exact setDirectTrue_direct_self g hlen
    · have hs : ∀ x : Node, g.heap.set i x = g.heap :=
        fun x => List.set_eq_of_length_le (by omega)
      have : (g.setDirectTrue i).nodeOf i = g.nodeOf i := by
        simp [Graph.setDirectTrue, Graph.nodeOf, hs]
      rw [this]
      exact h
  · rw [setDirectTrue_nodeOf_ne g hij]
    exact h

theorem appendChild_nodeOf_direct (g : Graph) (i c j : Nat) :
    ((g.appendChild i c).nodeOf j).direct = (g.nodeOf j).direct := by
  by_cases hij : i = j
  · subst hij
    by_cases hlen : i < g.heap.length
    · simp [Graph.appendChild, Graph.nodeOf, List.getD_eq_getElem?_getD,
        List.getElem?_set_self hlen]
    · have hs : ∀ x : Node, g.heap.set i x = g.heap :=
        fun x => List.set_eq_of_length_le (by omega)
      simp [Graph.appendChild, Graph.nodeOf, hs]
  · simp [Graph.appendChild, Graph.nodeOf, List.getD_eq_getElem?_getD,
      List.getElem?_set_ne hij]

theorem nodeOf_mk_append (hp : List Node) (x : Node) (nds : List (String × Nat))
    (rid : Nat) {j : Nat} (h : j < hp.length) :
    (Graph.mk (hp ++ [x]) nds rid).nodeOf j = hp.getD j default := by
  show (hp ++ [x]).getD j default = hp.getD j default
  exact List.getD_append _ _ _ _ h

/-- C4, second half (amended): on a graph whose index is well-formed and
whose paths avoid the `'@'` separator, two consecutive `getOrCreateNode`
calls with the same `'@'`-free path but different versions return distinct
node pointers. -/
theorem getOrCreateNode_distinct_versions (g : Graph) (p v₁ v₂ : String) (d₁ d₂ : Bool)
    (hwf : g.WFIndex) (hpf : g.PathsAtFree)
    (hp : p.data.all (fun c => c != '@') = true) (hne : v₁ ≠ v₂) :
    ((g.getOrCreateNode p v₁ d₁).1.getOrCreateNode p v₂ d₂).2
      ≠ (g.getOrCreateNode p v₁ d₁).2 := by
  cases h₁ : mapGet g.nodes (reqKey p v₁) with
  | some i =>
    obtain ⟨hilen, hikey⟩ := hwf _ (mapGet_mem h₁)
    have hfst : g.getOrCreateNode p v₁ d₁ = (if d₁ = true then g.setDirectTrue i else g, i) := by
      simp [Graph.getOrCreateNode, h₁]
    rw [hfst]
    set Gd := if d₁ = true then g.setDirectTrue i else g with hGd
    have hnodes : Gd.nodes = g.nodes := by
      rw [hGd]
      cases d₁ <;> rfl
    have hlen : Gd.heap.length = g.heap.length := by
      rw [hGd]
      cases d₁ <;> simp [Graph.setDirectTrue]
    cases h₂ : mapGet g.nodes (reqKey p v₂) with
    | some j =>
      have hsnd : (Gd.getOrCreateNode p v₂ d₂).2 = j := by
        simp [Graph.getOrCreateNode, hnodes, h₂]
      rw [hsnd]
      intro hji
      subst hji
      obtain ⟨hjlen, hjkey⟩ := hwf _ (mapGet_mem h₂)
      have hatfree := hpf _ (g.nodeOf_mem hilen)
      have hk₁ : reqKey p v₁ = reqKey (g.nodeOf j).path (g.nodeOf j).version := by
        rcases hikey with hk | hk
        · exact absurd hk (reqKey_ne_of_atFree _ _ _ hatfree)
        · exact hk
      have hk₂ : reqKey p v₂ = reqKey (g.nodeOf j).path (g.nodeOf j).version := by
        rcases hjkey with hk | hk
        · exact absurd hk (reqKey_ne_of_atFree _ _ _ hatfree)
        · exact hk
      exact hne (reqKey_inj p p v₁ v₂ hp hp (hk₁.trans hk₂.symm)).2
    | none =>
      have hsnd : (Gd.getOrCreateNode p v₂ d₂).2 = Gd.heap.length := by
        simp [Graph.getOrCreateNode, hnodes, h₂]
      rw [hsnd, hlen]
      omega
  | none =>
    have hfst : (g.getOrCreateNode p v₁ d₁).2 = g.heap.length := by
      simp [Graph.getOrCreateNode, h₁]
    set G1 := (g.getOrCreateNode p v₁ d₁).1 with hG1
    have hfn : G1.nodes
        = (p, g.heap.length) :: (reqKey p v₁, g.heap.length) :: g.nodes := by
      rw [hG1]
      simp [Graph.getOrCreateNode, h₁]
    have hfl : G1.heap.length = g.heap.length + 1 := by
      rw [hG1]
      simp [Graph.getOrCreateNode, h₁]
    have hk₂p : reqKey p v₂ ≠ p := reqKey_ne_of_atFree _ _ _ hp
    have hk₂k₁ : reqKey p v₂ ≠ reqKey p v₁ := by
      intro h
      exact hne ((reqKey_inj p p v₂ v₁ hp hp h).2).symm
    have hlook : mapGet G1.nodes (reqKey p v₂) = mapGet g.nodes (reqKey p v₂) := by
      rw [hfn, mapGet_cons_ne _ _ _ _ hk₂p, mapGet_cons_ne _ _ _ _ hk₂k₁]
    rw [hfst]
    cases h₂ : mapGet g.nodes (reqKey p v₂) with
    | some j =>
      obtain ⟨hjlen, _⟩ := hwf _ (mapGet_mem h₂)
      have hsnd : (G1.getOrCreateNode p v₂ d₂).2 = j := by
        simp [Graph.getOrCreateNode, hlook, h₂]
      rw [hsnd]
      omega
    | none =>
      have hsnd : (G1.getOrCreateNode p v₂ d₂).2 = G1.heap.length := by
        simp [Graph.getOrCreateNode, hlook, h₂]
      rw [hsnd, hfl]
      omega

/-- Local manifest whose direct requirement's module path contains the
`'@'` key separator, aliasing the index bindings. -/
def parserAlias : GoParser := ⟨"root", [⟨"a@b", "c", false⟩, ⟨"a", "b", true⟩]⟩

/-- A plain one-requirement manifest used as a well-formed concrete graph. -/
def parserSimple : GoParser := ⟨"root", [⟨"a", "v1", false⟩]⟩

/-- C4, refuting the distinct-versions half as stated over every graph: on
the graph built from a manifest requiring module `a@b` at version `c`, the
index binds both `a@b@c` (that node's identity key) and `a@b` (its bare
path) to the same node, so `getOrCreateNode` with path `a` and the two
different versions `b` and `b@c` returns the same node instance twice. -/
theorem C4_counterexample :
    ("b" : String) ≠ "b@c" ∧
    (((Build parserAlias).getOrCreateNode "a" "b" false).1.getOrCreateNode "a" "b@c" false).2
      = ((Build parserAlias).getOrCreateNode "a" "b" false).2 := by
  constructor
  · decide
  · decide

/-- C4 (amended): on any graph, `getOrCreateNode` called twice with the same
`(path, version)` pair returns the identical node pointer and the second
call allocates nothing; and — provided the graph's index is well-formed and
the paths involved avoid the `'@'` key separator (which the original claim's
unrestricted "any graph" lacks, see `C4_counterexample`) — two calls with
the same path but different versions return two distinct node pointers. -/
theorem C4_node_identity :
    (∀ (g : Graph) (p v : String) (d₁ d₂ : Bool),
      ((g.getOrCreateNode p v d₁).1.getOrCreateNode p v d₂).2
        = (g.getOrCreateNode p v d₁).2 ∧
      ((g.getOrCreateNode p v d₁).1.getOrCreateNode p v d₂).1.heap.length
        = (g.getOrCreateNode p v d₁).1.heap.length) ∧
    (∀ (g : Graph) (p v₁ v₂ : String) (d₁ d₂ : Bool),
      g.WFIndex → g.PathsAtFree → p.data.all (fun c => c != '@') = true → v₁ ≠ v₂ →
      ((g.getOrCreateNode p v₁ d₁).1.getOrCreateNode p v₂ d₂).2
        ≠ (g.getOrCreateNode p v₁ d₁).2) :=
  ⟨fun g p v d₁ d₂ =>
    ⟨(getOrCreateNode_same_pair g p v d₁ d₂).1, (getOrCreateNode_same_pair g p v d₁ d₂).2.1⟩,
   getOrCreateNode_distinct_versions⟩

/-- Witness for `C4_node_identity` on the concrete graph of `parserSimple`:
repeating the pair `(a, v1)` returns the same pointer, while `(a, v1)` then
`(a, v2)` return different pointers. -/
theorem C4_node_identity_witness :
    (((Build parserSimple).getOrCreateNode "a" "v1" true).1.getOrCreateNode "a" "v1" false).2
      = ((Build parserSimple).getOrCreateNode "a" "v1" true).2 ∧
    (((Build parserSimple).getOrCreateNode "a" "v1" false).1.getOrCreateNode "a" "v2" false).2
      ≠ ((Build parserSimple).getOrCreateNode "a" "v1" false).2 :=
  ⟨(C4_node_identity.1 (Build parserSimple) "a" "v1" true false).1,
   C4_node_identity.2 (Build parserSimple) "a" "v1" "v2" false false
     (by decide) (by decide) (by decide) (by decide)⟩

/-- C10: the `Direct` flag is monotone under graph building.  For every
graph, `getOrCreateNode` (i) never clears an existing node's `Direct` flag,
(ii) with `direct = false` leaves every existing node untouched, and
(iii) with `direct = true` on an already-registered key sets that node's
`Direct` flag to `true`; and `appendChild` (the only other node mutation in
the builder) never changes any `Direct` flag.  Hence across any sequence of
graph-building operations a node's `Direct` flag never goes from `true` to
`false`. -/
theorem C10_direct_flag_monotone :
    ∀ (g : Graph) (p v : String) (d : Bool) (j : Nat),
      ((g.nodeOf j).direct = true → (((g.getOrCreateNode p v d).1).nodeOf j).direct = true) ∧
      (d = false → j < g.heap.length →
        ((g.getOrCreateNode p v d).1).nodeOf j = g.nodeOf j) ∧
      (mapGet g.nodes (reqKey p v) = some j → j < g.heap.length → d = true →
        (((g.getOrCreateNode p v d).1).nodeOf j).direct = true) ∧
      (∀ i c : Nat, ((g.appendChild i c).nodeOf j).direct = (g.nodeOf j).direct) := by
  intro g p v d j
  refine ⟨?_, ?_, ?_, fun i c => appendChild_nodeOf_direct g i c j⟩
  · intro h
    cases h₁ : mapGet g.nodes (reqKey p v) with
    | some nid =>
      cases d
      · simpa [Graph.getOrCreateNode, h₁] using h
      · simp only [Graph.getOrCreateNode, h₁]
        simpa using setDirectTrue_direct_mono g nid j h
    | none =>
      by_cases hj : j < g.heap.length
      · simp only [Graph.getOrCreateNode, h₁]
        rw [nodeOf_mk_append _ _ _ _ hj]
        exact h
      · have hdef : g.nodeOf j = default :=
          List.getD_eq_default _ _ (by omega)
        rw [hdef] at h
        simp [default] at h
  · intro hd hj
    subst hd
    cases h₁ : mapGet g.nodes (reqKey p v) with
    | some nid => simp [Graph.getOrCreateNode, h₁]
    | none =>
      simp only [Graph.getOrCreateNode, h₁]
      exact nodeOf_mk_append _ _ _ _ hj
  · intro h₁ hj hd
    subst hd
    simp only [Graph.getOrCreateNode, h₁]
    simpa using setDirectTrue_direct_self g hj

/-- Local manifest whose single requirement is indirect, so its node starts
with `Direct = false`. -/
def parserIndirect : GoParser := ⟨"root", [⟨"a", "v1", true⟩]⟩

/-- Witness for `C10_direct_flag_monotone` on the concrete graph of
`parserIndirect`: promoting the indirect node with `direct = true` sets its
flag, a `direct = false` call leaves it untouched, the root's flag survives
a `getOrCreateNode`, and `appendChild` preserves the root's flag. -/
theorem C10_direct_flag_monotone_witness :
    ((((Build parserIndirect).getOrCreateNode "a" "v1" true).1).nodeOf 1).direct = true ∧
    (((Build parserIndirect).getOrCreateNode "a" "v1" false).1).nodeOf 1
      = (Build parserIndirect).nodeOf 1 ∧
    ((((Build parserIndirect).getOrCreateNode "b" "v9" false).1).nodeOf 0).direct = true ∧
    (((Build parserIndirect).appendChild 0 1).nodeOf 0).direct
      = ((Build parserIndirect).nodeOf 0).direct :=
  ⟨(C10_direct_flag_monotone (Build parserIndirect) "a" "v1" true 1).2.2.1
      (by decide) (by decide) rfl,
   (C10_direct_flag_monotone (Build parserIndirect) "a" "v1" false 1).2.1 rfl (by decide),
   (C10_direct_flag_monotone (Build parserIndirect) "b" "v9" false 0).1 (by decide),
   (C10_direct_flag_monotone (Build parserIndirect) "b" "v9" false 0).2.2.2 0 1⟩

/-! ## `FindPaths` on a diamond (C7) -/

/-- A diamond-shaped graph: the root has two distinct children and both
share one child.  `FindPaths` reads only the heap and the root pointer, so
the string index is irrelevant here and left empty. -/
def diamondGraph (r a b d : String) : Graph :=
  ⟨[⟨r, "", true, [1, 2]⟩, ⟨a, "v1", true, [3]⟩, ⟨b, "v2", true, [3]⟩, ⟨d, "v3", false, []⟩],
   [], 0⟩

/-- C7: on every diamond-shaped graph (root `r` with two distinct child
nodes `a` and `b` that both have the same single child `d`, all four paths
pairwise distinct where it matters), `FindPaths d` returns exactly two path
sequences, `[r, a, d]` and `[r, b, d]` — each starting at the root's path
and ending at the target's — and the two sequences are distinct: a node
reachable via two different parents yields two distinct reported paths. -/
theorem C7_findPaths_diamond (r a b d : String)
    (h1 : a ≠ r) (h2 : b ≠ r) (h3 : d ≠ r) (h4 : a ≠ b) (h5 : d ≠ a) (h6 : d ≠ b) :
    (diamondGraph r a b d).FindPaths d = [[r, a, d], [r, b, d]] ∧
    ([r, a, d] : List String) ≠ [r, b, d] := by
  constructor
  · simp [diamondGraph, Graph.FindPaths, Graph.dfsPaths, Graph.nodeOf,
      h1, h2, h3, h5, h6, Ne.symm h3, Ne.symm h5, Ne.symm h6]
  · simp [h4]

/-- Witness for `C7_findPaths_diamond` at concrete labels. -/
theorem C7_findPaths_diamond_witness :
    (diamondGraph "root" "a" "b" "d").FindPaths "d"
      = [["root", "a", "d"], ["root", "b", "d"]] ∧
    (["root", "a", "d"] : List String) ≠ ["root", "b", "d"] :=
  C7_findPaths_diamond "root" "a" "b" "d"
    (by decide) (by decide) (by decide) (by decide) (by decide) (by decide)

/-! ## Exact shape of `Build` without a registry client (C3)

The two loops of the proxy-less branch are characterised exactly: after
processing requirement lists `ds` (direct) and `is` (indirect) the graph is
`fullState`.  Freshness (`KeysFresh`) rules out the `'@'` aliasing of
`C4_counterexample` / `C3_counterexample`. -/

/-- Node allocated for a direct requirement. -/
def mkDirectNode (r : GoRequire) : Node := ⟨r.path, r.version, true, []⟩

/-- Node allocated for an indirect requirement. -/
def mkIndirectNode (r : GoRequire) : Node := ⟨r.path, r.version, false, []⟩

/-- Index bindings written while processing `reqs` left to right starting at
heap position `start`: most recent first, each allocation contributing its
bare-path binding on top of its identity-key binding. -/
def reqEntries (reqs : List GoRequire) (start : Nat) : List (String × Nat) :=
  match reqs with
  | [] => []
  | r :: rs =>
    reqEntries rs (start + 1) ++ [(r.path, start), (reqKey r.path r.version, start)]

/-- Graph state after the direct-requirement loop over `ds`. -/
def dirState (rp : String) (ds : List GoRequire) : Graph :=
  ⟨⟨rp, "", true, List.range' 1 ds.length⟩ :: ds.map mkDirectNode,
   reqEntries ds 1 ++ [(rp, 0)], 0⟩

/-- Graph state after additionally processing indirect requirements `is`. -/
def fullState (rp : String) (ds is : List GoRequire) : Graph :=
  ⟨⟨rp, "", true, List.range' 1 ds.length⟩ :: (ds.map mkDirectNode ++ is.map mkIndirectNode),
   reqEntries is (ds.length + 1) ++ (reqEntries ds 1 ++ [(rp, 0)]), 0⟩

/-- Freshness of a requirement snapshot: all identity keys are pairwise
distinct and distinct from the root path, and no requirement's bare path
collides with any requirement's identity key (ruling out `'@'` aliasing). -/
def KeysFresh (rp : String) (reqs : List GoRequire) : Prop :=
  (rp :: reqs.map (fun r => reqKey r.path r.version)).Nodup ∧
  ∀ r ∈ reqs, ∀ s ∈ reqs, r.path ≠ reqKey s.path s.version

instance (rp : String) (reqs : List GoRequire) : Decidable (KeysFresh rp reqs) := by
  unfold KeysFresh
  infer_instance

theorem KeysFresh_of_append {rp : String} {xs ys : List GoRequire}
    (h : KeysFresh rp (xs ++ ys)) : KeysFresh rp xs := by
  refine ⟨?_, fun r hr s hs => h.2 r (List.mem_append_left _ hr) s (List.mem_append_left _ hs)⟩
  have hsub : (rp :: xs.map (fun r => reqKey r.path r.version)).Sublist
      (rp :: (xs ++ ys).map (fun r => reqKey r.path r.version)) := by
    refine List.Sublist.cons₂ _ ?_
    rw [List.map_append]
    exact List.sublist_append_left _ _
  exact h.1.sublist hsub

theorem reqEntries_append (xs : List GoRequire) (r : GoRequire) :
    ∀ s, reqEntries (xs ++ [r]) s
      = (r.path, s + xs.length) :: (reqKey r.path r.version, s + xs.length)
          :: reqEntries xs s := by
  induction xs with
  | nil =>
    intro s
    simp [reqEntries]
  | cons x xs ih =>
    intro s
    show reqEntries (x :: (xs ++ [r])) s = _
    rw [reqEntries, ih (s + 1)]
    rw [reqEntries]
    have h1 : s + 1 + xs.length = s + (x :: xs).length := by
      simp
      omega
    rw [h1]
    simp

theorem mem_reqEntries_fst (x : String) :
    ∀ (reqs : List GoRequire) (s : Nat),
      (x ∈ (reqEntries reqs s).map Prod.fst
        ↔ ∃ r ∈ reqs, x = r.path ∨ x = reqKey r.path r.version) := by
  intro reqs
  induction reqs with
  | nil =>
    intro s
    simp [reqEntries]
  | cons r rs ih =>
    intro s
    rw [reqEntries]
    simp only [List.map_append, List.mem_append, ih (s + 1)]
    constructor
    · rintro (⟨q, hq, hc⟩ | hm)
      · exact ⟨q, List.mem_cons_of_mem _ hq, hc⟩
      · simp only [List.map_cons, List.map_nil, List.mem_cons, List.mem_singleton] at hm
        rcases hm with h | h | h
        · exact ⟨r, List.mem_cons_self _ _, Or.inl h⟩
        · exact ⟨r, List.mem_cons_self _ _, Or.inr h⟩
        · simp at h
    · rintro ⟨q, hq, hc⟩
      rcases List.mem_cons.mp hq with rfl | hq'
      · right
        simp only [List.map_cons, List.map_nil, List.mem_cons, List.mem_singleton]
        tauto
      · exact Or.inl ⟨q, hq', hc⟩

theorem mapGet_append_left {α : Type} {m₁ : List (String × α)} {k : String} {v : α}
    (m₂ : List (String × α)) (h : mapGet m₁ k = some v) :
    mapGet (m₁ ++ m₂) k = some v := by
  induction m₁ with
  | nil => simp [mapGet] at h
  | cons kv rest ih =>
    obtain ⟨k', v'⟩ := kv
    by_cases hk : k = k'
    · subst hk
      rw [mapGet_cons_eq] at h
      rw [List.cons_append, mapGet_cons_eq]
      exact h
    · rw [mapGet_cons_ne _ _ _ _ hk] at h
      rw [List.cons_append, mapGet_cons_ne _ _ _ _ hk]
      exact ih h

theorem addDirect_step (rp : String) (pre : List GoRequire) (r : GoRequire)
    (hkrp : reqKey r.path r.version ≠ rp)
    (hkk : ∀ s ∈ pre, reqKey r.path r.version ≠ reqKey s.path s.version)
    (hkp : ∀ s ∈ pre, reqKey r.path r.version ≠ s.path) :
    addDirect (dirState rp pre) r = dirState rp (pre ++ [r]) := by
  have hmiss : mapGet (dirState rp pre).nodes (reqKey r.path r.version) = none := by
    apply mapGet_eq_none_of_not_mem
    intro hmem
    simp only [dirState, List.map_append] at hmem
    rcases List.mem_append.mp hmem with h | h
    · obtain ⟨s, hs, hc⟩ := (mem_reqEntries_fst _ pre 1).mp h
      rcases hc with hc | hc
      · exact hkp s hs hc
      · exact hkk s hs hc
    · simp only [List.map_cons, List.map_nil, List.mem_singleton] at h
      exact hkrp h
  simp only [addDirect, Graph.getOrCreateNode, hmiss]
  simp only [dirState, Graph.appendChild, Graph.nodeOf, List.cons_append,
    List.length_cons, List.length_map, List.getD_cons_zero, List.set_cons_zero]
  rw [reqEntries_append, Graph.mk.injEq]
  refine ⟨?_, ?_, rfl⟩
  · rw [List.map_append]
    have h1 : pre.length + 1 = 1 + pre.length := by omega
    rw [h1, ← List.range'_1_concat]
    simp [mkDirectNode]
  · have h1 : pre.length + 1 = 1 + pre.length := by omega
    rw [h1]
    simp

theorem buildDirects_fold (rp : String) :
    ∀ (ds pre : List GoRequire), KeysFresh rp (pre ++ ds) →
      List.foldl addDirect (dirState rp pre) ds = dirState rp (pre ++ ds) := by
  intro ds
  induction ds with
  | nil =>
    intro pre _
    simp
  | cons r rest ih =>
    intro pre h
    have hr : r ∈ pre ++ r :: rest := by simp
    have hkrp : reqKey r.path r.version ≠ rp := by
      intro he
      exact (List.nodup_cons.mp h.1).1 (he ▸ List.mem_map_of_mem _ hr)
    have hkk : ∀ s ∈ pre, reqKey r.path r.version ≠ reqKey s.path s.version := by
      intro s hs he
      have hnd := (List.nodup_cons.mp h.1).2
      rw [List.map_append] at hnd
      have hdisj := List.disjoint_of_nodup_append hnd
      have hsmem : reqKey s.path s.version
          ∈ pre.map (fun q => reqKey q.path q.version) := List.mem_map_of_mem _ hs
      have hrmem : reqKey r.path r.version
          ∈ (r :: rest).map (fun q => reqKey q.path q.version) :=
        List.mem_map_of_mem _ (List.mem_cons_self r rest)
      rw [he] at hrmem
      exact hdisj hsmem hrmem
    have hkp : ∀ s ∈ pre, reqKey r.path r.version ≠ s.path := by
      intro s hs he
      exact h.2 s (List.mem_append_left _ hs) r hr he.symm
    rw [List.foldl_cons, addDirect_step rp pre r hkrp hkk hkp]
    rw [show pre ++ r :: rest = (pre ++ [r]) ++ rest from List.append_cons pre r rest] at h ⊢
    exact ih (pre ++ [r]) h

theorem addIndirect_step (rp : String) (ds ipre : List GoRequire) (e : GoRequire)
    (hkrp : reqKey e.path e.version ≠ rp)
    (hkkD : ∀ s ∈ ds, reqKey e.path e.version ≠ reqKey s.path s.version)
    (hkpD : ∀ s ∈ ds, reqKey e.path e.version ≠ s.path)
    (hkkI : ∀ s ∈ ipre, reqKey e.path e.version ≠ reqKey s.path s.version)
    (hkpI : ∀ s ∈ ipre, reqKey e.path e.version ≠ s.path) :
    addIndirect (fullState rp ds ipre) e = fullState rp ds (ipre ++ [e]) := by
  have hmiss : mapGet (fullState rp ds ipre).nodes (reqKey e.path e.version) = none := by
    apply mapGet_eq_none_of_not_mem
    intro hmem
    simp only [fullState, List.map_append] at hmem
    rcases List.mem_append.mp hmem with h | h
    · obtain ⟨s, hs, hc⟩ := (mem_reqEntries_fst _ ipre (ds.length + 1)).mp h
      rcases hc with hc | hc
      · exact hkpI s hs hc
      · exact hkkI s hs hc
    · rcases List.mem_append.mp h with h' | h'
      · obtain ⟨s, hs, hc⟩ := (mem_reqEntries_fst _ ds 1).mp h'
        rcases hc with hc | hc
        · exact hkpD s hs hc
        · exact hkkD s hs hc
      · simp only [List.map_cons, List.map_nil, List.mem_singleton] at h'
        exact hkrp h'
  simp only [addIndirect, Graph.getOrCreateNode, hmiss]
  simp only [fullState, List.cons_append, List.length_cons, List.length_append,
    List.length_map]
  rw [reqEntries_append, Graph.mk.injEq]
  refine ⟨?_, ?_, rfl⟩
  · simp [mkIndirectNode, List.append_assoc]
  · have h1 : ds.length + ipre.length + 1 = ds.length + 1 + ipre.length := by omega
    rw [h1]
    simp

theorem fullState_nil (rp : String) (ds : List GoRequire) :
    fullState rp ds [] = dirState rp ds := by
  simp [fullState, dirState, reqEntries]

theorem buildIndirects_fold (rp : String) (ds : List GoRequire) :
    ∀ (is ipre : List GoRequire), KeysFresh rp ((ds ++ ipre) ++ is) →
      List.foldl addIndirect (fullState rp ds ipre) is = fullState rp ds (ipre ++ is) := by
  intro is
  induction is with
  | nil =>
    intro ipre _
    simp
  | cons e rest ih =>
    intro ipre h
    have he : e ∈ (ds ++ ipre) ++ e :: rest := by simp
    have hkrp : reqKey e.path e.version ≠ rp := by
      intro heq
      exact (List.nodup_cons.mp h.1).1 (heq ▸ List.mem_map_of_mem _ he)
    have hdisj := by
      have hnd := (List.nodup_cons.mp h.1).2
      rw [List.map_append] at hnd
      exact List.disjoint_of_nodup_append hnd
    have hkey : ∀ s ∈ ds ++ ipre, reqKey e.path e.version ≠ reqKey s.path s.version := by
      intro s hs heq
      have hsmem : reqKey s.path s.version
          ∈ (ds ++ ipre).map (fun q => reqKey q.path q.version) := List.mem_map_of_mem _ hs
      have hemem : reqKey e.path e.version
          ∈ (e :: rest).map (fun q => reqKey q.path q.version) :=
        List.mem_map_of_mem _ (List.mem_cons_self e rest)
      rw [heq] at hemem
      exact hdisj hsmem hemem
    have hpath : ∀ s ∈ ds ++ ipre, reqKey e.path e.version ≠ s.path := by
      intro s hs heq
      exact h.2 s (List.mem_append_left _ hs) e he heq.symm
    rw [List.foldl_cons, addIndirect_step rp ds ipre e hkrp
      (fun s hs => hkey s (List.mem_append_left _ hs))
      (fun s hs => hpath s (List.mem_append_left _ hs))
      (fun s hs => hkey s (List.mem_append_right _ hs))
      (fun s hs => hpath s (List.mem_append_right _ hs))]
    have hassoc : (ds ++ ipre) ++ e :: rest = (ds ++ (ipre ++ [e])) ++ rest := by
      rw [List.append_cons]
      simp [List.append_assoc]
    rw [hassoc] at h
    rw [ih (ipre ++ [e]) h, List.append_assoc]
    rfl

/-- Exact shape of the proxy-less build under freshness: the root, one node
per requirement in order (directs first), the root's children pointing at
the direct nodes in requirement order, and the index holding the root's
bare path plus a bare-path and an identity-key binding per requirement. -/
theorem Build_eq_fullState (p : GoParser)
    (h : KeysFresh p.modulePath (p.directRequires ++ p.indirectRequires)) :
    Build p = fullState p.modulePath p.directRequires p.indirectRequires := by
  have h0 : (Graph.mk [⟨p.modulePath, "", true, []⟩] [(p.modulePath, 0)] 0)
      = dirState p.modulePath [] := rfl
  show (BuildWithProxy p none).1 = _
  simp only [BuildWithProxy]
  rw [h0, buildDirects_fold p.modulePath p.directRequires [] (by
    simpa using KeysFresh_of_append h)]
  rw [List.nil_append, ← fullState_nil p.modulePath p.directRequires]
  rw [buildIndirects_fold p.modulePath p.directRequires p.indirectRequires [] (by
    simpa using h)]
  simp

theorem fullState_nodeOf_zero (rp : String) (ds is : List GoRequire) :
    (fullState rp ds is).nodeOf 0 = ⟨rp, "", true, List.range' 1 ds.length⟩ := rfl

theorem fullState_nodeOf_succ (rp : String) (ds is : List GoRequire) (k : Nat) :
    (fullState rp ds is).nodeOf (k + 1)
      = (ds.map mkDirectNode ++ is.map mkIndirectNode).getD k default := rfl

theorem fullState_children_succ (rp : String) (ds is : List GoRequire) (k : Nat) :
    ((fullState rp ds is).nodeOf (k + 1)).children = [] := by
  rw [fullState_nodeOf_succ]
  set l := ds.map mkDirectNode ++ is.map mkIndirectNode with hl
  have hall : ∀ n ∈ l, n.children = [] := by
    intro n hn
    rcases List.mem_append.mp hn with h | h <;>
      · obtain ⟨r, _, rfl⟩ := List.mem_map.mp h
        rfl
  by_cases hk : k < l.length
  · rw [List.getD_eq_getElem _ _ hk]
    exact hall _ (List.getElem_mem hk)
  · rw [List.getD_eq_default _ _ (by omega)]
    rfl

/-- Looking up the `j`-th requirement's identity key in its own entry block
finds its own binding, under block-local freshness. -/
theorem mapGet_reqEntries_self :
    ∀ (l : List GoRequire) (s j : Nat), j < l.length →
      (l.map (fun r => reqKey r.path r.version)).Nodup →
      (∀ a ∈ l, ∀ b ∈ l, a.path ≠ reqKey b.path b.version) →
      mapGet (reqEntries l s)
        (reqKey (l.getD j default).path (l.getD j default).version) = some (s + j) := by
  intro l
  induction l with
  | nil =>
    intro s j hj
    simp at hj
  | cons r rs ih =>
    intro s j hj hnd hpk
    cases j with
    | zero =>
      have hgd : (r :: rs).getD 0 default = r := rfl
      rw [hgd, reqEntries]
      have hmiss : mapGet (reqEntries rs (s + 1)) (reqKey r.path r.version) = none := by
        apply mapGet_eq_none_of_not_mem
        intro hmem
        obtain ⟨q, hq, hc⟩ := (mem_reqEntries_fst _ rs (s + 1)).mp hmem
        rcases hc with hc | hc
        · exact hpk q (List.mem_cons_of_mem _ hq) r (List.mem_cons_self _ _) hc.symm
        · rw [List.map_cons, List.nodup_cons] at hnd
          exact hnd.1 (hc ▸ List.mem_map_of_mem _ hq)
      rw [mapGet_append_of_none _ _ _ hmiss]
      rw [mapGet_cons_ne _ _ _ _
        (fun hc => hpk r (List.mem_cons_self _ _) r (List.mem_cons_self _ _) hc.symm)]
      rw [mapGet_cons_eq]
      simp
    | succ j' =>
      have hgd : (r :: rs).getD (j' + 1) default = rs.getD j' default := rfl
      rw [hgd, reqEntries]
      have hin := ih (s + 1) j' (by simpa using hj)
        (by rw [List.map_cons, List.nodup_cons] at hnd; exact hnd.2)
        (fun a ha b hb => hpk a (List.mem_cons_of_mem _ ha) b (List.mem_cons_of_mem _ hb))
      rw [mapGet_append_left _ hin]
      congr 1
      omega

/-- C3, refuting the claim as stated: `parserAlias` satisfies the claim's
premise (its two `path@version` pairs `a@b@c` and `a@b` are distinct and
distinct from the root), yet the node that the index returns for the
indirect requirement `(a, b)`'s identity key `a@b` is node 1 — the direct
requirement's node — which sits in the root's child list, because the bare
path `a@b` of the direct requirement aliases the indirect requirement's
key. -/
theorem C3_counterexample :
    parserAlias.indirectRequires = [⟨"a", "b", true⟩] ∧
    ("root" :: [reqKey "a@b" "c", reqKey "a" "b"]).Nodup ∧
    mapGet (Build parserAlias).nodes (reqKey "a" "b") = some 1 ∧
    1 ∈ ((Build parserAlias).nodeOf (Build parserAlias).rootId).children := by
  refine ⟨by decide, by decide, by decide, by decide⟩

/-- C3 (amended): for every parser snapshot with `N` direct and `M` indirect
requirement records whose `path@version` identity keys are pairwise distinct
and distinct from the root path, and — additionally to the original claim —
no requirement's bare path equals a requirement's identity key (ruling out
`'@'` aliasing, see `C3_counterexample`), `Build` without a registry client
returns a graph whose root has exactly `N` children matching the direct
requirements in order; each indirect requirement's key resolves in the index
to its own standalone node, which appears in no node's child list; and the
index holds at least `N + M + 1` distinct keys. -/
theorem C3_build_without_registry (p : GoParser)
    (h : KeysFresh p.modulePath (p.directRequires ++ p.indirectRequires)) :
    ((Build p).nodeOf (Build p).rootId).children.length = p.directRequires.length ∧
    (∀ i, i < p.directRequires.length →
      ((Build p).nodeOf (((Build p).nodeOf (Build p).rootId).children.getD i 0)).path
          = (p.directRequires.getD i default).path ∧
      ((Build p).nodeOf (((Build p).nodeOf (Build p).rootId).children.getD i 0)).version
          = (p.directRequires.getD i default).version) ∧
    (∀ j, j < p.indirectRequires.length →
      mapGet (Build p).nodes (reqKey (p.indirectRequires.getD j default).path
          (p.indirectRequires.getD j default).version)
        = some (p.directRequires.length + 1 + j) ∧
      ∀ nid, p.directRequires.length + 1 + j ∉ ((Build p).nodeOf nid).children) ∧
    p.directRequires.length + p.indirectRequires.length + 1
      ≤ ((Build p).nodes.map Prod.fst).toFinset.card := by
  rw [Build_eq_fullState p h]
  set rp := p.modulePath
  set D := p.directRequires
  set I := p.indirectRequires
  have hroot : (fullState rp D I).rootId = 0 := rfl
  refine ⟨?_, ?_, ?_, ?_⟩
  · rw [hroot, fullState_nodeOf_zero]
    simp
  · intro i hi
    rw [hroot, fullState_nodeOf_zero]
    have hlen : i < (List.range' 1 D.length).length := by simpa using hi
    have hch : (List.range' 1 D.length).getD i 0 = 1 + i := by
      rw [List.getD_eq_getElem _ _ hlen]
      exact List.getElem_range'_1 i hlen
    rw [hch, show 1 + i = i + 1 from by omega, fullState_nodeOf_succ]
    have hi' : i < (D.map mkDirectNode).length := by simpa using hi
    have hgd : (D.map mkDirectNode ++ I.map mkIndirectNode).getD i default
        = mkDirectNode (D.getD i default) := by
      rw [List.getD_append _ _ _ _ hi', List.getD_eq_getElem _ _ hi',
        List.getElem_map, List.getD_eq_getElem _ _ (by simpa using hi)]
    rw [hgd]
    exact ⟨rfl, rfl⟩
  · intro j hj
    constructor
    · have hIk : (I.map (fun r => reqKey r.path r.version)).Nodup := by
        have := (List.nodup_cons.mp h.1).2
        rw [List.map_append] at this
        exact this.of_append_right
      have hIp : ∀ a ∈ I, ∀ b ∈ I, a.path ≠ reqKey b.path b.version :=
        fun a ha b hb => h.2 a (List.mem_append_right _ ha) b (List.mem_append_right _ hb)
      have hin := mapGet_reqEntries_self I (D.length + 1) j hj hIk hIp
      show mapGet (reqEntries I (D.length + 1) ++ (reqEntries D 1 ++ [(rp, 0)])) _ = _
      rw [mapGet_append_left _ hin]
    · intro nid
      cases nid with
      | zero =>
        rw [fullState_nodeOf_zero]
        intro hmem
        have := List.mem_range'_1.mp hmem
        omega
      | succ k =>
        rw [fullState_children_succ]
        simp
  · have hsub : ∀ x ∈ rp :: (D ++ I).map (fun r => reqKey r.path r.version),
        x ∈ (fullState rp D I).nodes.map Prod.fst := by
      intro x hx
      show x ∈ (reqEntries I (D.length + 1) ++ (reqEntries D 1 ++ [(rp, 0)])).map Prod.fst
      simp only [List.map_append, List.mem_append]
      rcases List.mem_cons.mp hx with rfl | hx'
      · right; right; simp
      · rw [List.map_append, List.mem_append] at hx'
        rcases hx' with hx' | hx'
        · obtain ⟨r, hr, rfl⟩ := List.mem_map.mp hx'
          right; left
          exact (mem_reqEntries_fst _ D 1).mpr ⟨r, hr, Or.inr rfl⟩
        · obtain ⟨r, hr, rfl⟩ := List.mem_map.mp hx'
          left
          exact (mem_reqEntries_fst _ I (D.length + 1)).mpr ⟨r, hr, Or.inr rfl⟩
    have hcard : (rp :: (D ++ I).map (fun r => reqKey r.path r.version)).toFinset.card
        = D.length + I.length + 1 := by
      rw [List.toFinset_card_of_nodup h.1]
      simp
    calc D.length + I.length + 1
        = (rp :: (D ++ I).map (fun r => reqKey r.path r.version)).toFinset.card := hcard.symm
      _ ≤ ((fullState rp D I).nodes.map Prod.fst).toFinset.card := by
          apply Finset.card_le_card
          intro x hx
          rw [List.mem_toFinset] at hx ⊢
          exact hsub x hx

/-- Concrete snapshot with two direct and one indirect requirement, fresh keys. -/
def parserTwoOne : GoParser :=
  ⟨"root", [⟨"a", "v1", false⟩, ⟨"b", "v2", false⟩, ⟨"c", "v3", true⟩]⟩

/-- Witness for `C3_build_without_registry` on `parserTwoOne` (`N = 2`,
`M = 1`): two root children matching `a` and `b` in order, the indirect
requirement `c` resolving to standalone node 3 absent from the root's child
list, and at least four index keys. -/
theorem C3_build_without_registry_witness :
    ((Build parserTwoOne).nodeOf (Build parserTwoOne).rootId).children.length = 2 ∧
    ((Build parserTwoOne).nodeOf
        (((Build parserTwoOne).nodeOf (Build parserTwoOne).rootId).children.getD 0 0)).path
      = "a" ∧
    mapGet (Build parserTwoOne).nodes (reqKey "c" "v3") = some 3 ∧
    (3 ∉ ((Build parserTwoOne).nodeOf 0).children) ∧
    2 + 1 + 1 ≤ ((Build parserTwoOne).nodes.map Prod.fst).toFinset.card :=
  ⟨(C3_build_without_registry parserTwoOne (by decide)).1,
   ((C3_build_without_registry parserTwoOne (by decide)).2.1 0 (by decide)).1,
   ((C3_build_without_registry parserTwoOne (by decide)).2.2.1 0 (by decide)).1,
   ((C3_build_without_registry parserTwoOne (by decide)).2.2.1 0 (by decide)).2 0,
   (C3_build_without_registry parserTwoOne (by decide)).2.2.2⟩

/-! ## The in-memory TTL cache (`internal/proxy/cache.go`)

Wall-clock instants are integers passed explicitly (`time.Now()` becomes
the `now`/`t` argument; `time.After` on instants is `<`).  The cache's
`any` values are modelled by `CVal`, a sum of the dynamic types the client
actually stores (`*VersionInfo`, `[]string`, `[]byte`) plus a constructor
for any other type. -/

/-- Mirror of `proxy.VersionInfo`: a version string and a publication
timestamp (`time.Time` as an integer instant). -/
structure VersionInfo where
  version : String
  time : Int
deriving Repr, DecidableEq

/-- Dynamic type of a cached value (`any` in the Go source). -/
inductive CVal where
  | vinfo (info : VersionInfo)
  | vlist (versions : List String)
  | modBytes (data : String)
  | other
deriving Repr, DecidableEq

/-- Mirror of `cacheEntry`: opaque value plus absolute expiry instant. -/
structure cacheEntry where
  value : CVal
  expiration : Int
deriving Repr, DecidableEq

/-- Mirror of `MemoryCache`: the `entries` map, as an association list with
at most one binding per key (Go map assignment replaces, see `mapSet`). -/
structure MemoryCache where
  entries : List (String × cacheEntry)
deriving Repr, DecidableEq

/-- Go map assignment `m[k] = v`: any previous binding for `k` is replaced. -/
def mapSet {α : Type} (m : List (String × α)) (k : String) (v : α) :
    List (String × α) :=
  (k, v) :: m.filter (fun kv => kv.1 != k)

/-- Mirror of `MemoryCache.Get` at instant `now`: absent keys and entries
with `now` after their expiry read as not-found, independent of the sweep. -/
def MemoryCache.Get (c : MemoryCache) (key : String) (now : Int) : Option CVal :=
  match mapGet c.entries key with
  | none => none
  | some e => if e.expiration < now then none else some e.value

/-- Mirror of `MemoryCache.Set` at instant `now`: unconditionally store the
value with absolute expiry `now + ttl`. -/
def MemoryCache.Set (c : MemoryCache) (key : String) (value : CVal) (ttl now : Int) :
    MemoryCache :=
  ⟨mapSet c.entries key ⟨value, now + ttl⟩⟩

/-- Mirror of `MemoryCache.Clear`. -/
def MemoryCache.Clear (_ : MemoryCache) : MemoryCache := ⟨[]⟩

/-- One tick of the background `cleanup` goroutine at instant `now`: delete
every entry whose expiry has passed. -/
def MemoryCache.cleanupStep (c : MemoryCache) (now : Int) : MemoryCache :=
  ⟨c.entries.filter (fun kv => !(decide (kv.2.expiration < now)))⟩

theorem mapGet_filter_ne {α : Type} (m : List (String × α)) (k k' : String)
    (h : k ≠ k') : mapGet (m.filter (fun kv => kv.1 != k')) k = mapGet m k := by
  induction m with
  | nil => rfl
  | cons kv rest ih =>
    obtain ⟨k1, v1⟩ := kv
    by_cases h1 : k1 = k'
    · subst h1
      rw [List.filter_cons_of_neg (by simp)]
      rw [mapGet_cons_ne _ _ _ _ (by simpa using h)]
      exact ih
    · rw [List.filter_cons_of_pos (by simpa using h1)]
      by_cases hk : k = k1
      · subst hk
        rw [mapGet_cons_eq, mapGet_cons_eq]
      · rw [mapGet_cons_ne _ _ _ _ hk, mapGet_cons_ne _ _ _ _ hk]
        exact ih

theorem mapGet_filter_none {α : Type} (m : List (String × α)) (p : String × α → Bool)
    (k : String) (h : k ∉ m.map Prod.fst) : mapGet (m.filter p) k = none := by
  apply mapGet_eq_none_of_not_mem
  intro hmem
  apply h
  obtain ⟨kv, hkv, rfl⟩ := List.mem_map.mp hmem
  exact List.mem_map_of_mem _ (List.mem_of_mem_filter hkv)

/-- C2: TTL semantics of the cache.  After `Set(key, value, ttl)` at
instant `now`, `Get(key)` returns the value at every instant `t ≤ now + ttl`
and not-found at every instant `t > now + ttl`, without any sweep having
run; with `ttl ≤ 0` the entry is expired at every instant after the set;
`Set` of a different key does not affect `Get(key)`; `Get` on the empty
cache and after `Clear` is not-found; and a sweep tick at or before the
read instant never changes any `Get` result (on a cache with at most one
binding per key, which `Set` maintains). -/
theorem C2_cache_ttl_semantics :
    (∀ (c : MemoryCache) (k : String) (v : CVal) (ttl now t : Int),
      t ≤ now + ttl → (c.Set k v ttl now).Get k t = some v) ∧
    (∀ (c : MemoryCache) (k : String) (v : CVal) (ttl now t : Int),
      now + ttl < t → (c.Set k v ttl now).Get k t = none) ∧
    (∀ (c : MemoryCache) (k : String) (v : CVal) (ttl now t : Int),
      ttl ≤ 0 → now < t → (c.Set k v ttl now).Get k t = none) ∧
    (∀ (c : MemoryCache) (k k' : String) (v : CVal) (ttl now t : Int),
      k ≠ k' → (c.Set k' v ttl now).Get k t = c.Get k t) ∧
    (∀ (k : String) (t : Int), (MemoryCache.mk []).Get k t = none) ∧
    (∀ (c : MemoryCache) (k : String) (t : Int), c.Clear.Get k t = none) ∧
    (∀ (c : MemoryCache) (k : String) (ts t : Int),
      (c.entries.map Prod.fst).Nodup → ts ≤ t →
      (c.cleanupStep ts).Get k t = c.Get k t) := by
  refine ⟨?_, ?_, ?_, ?_, ?_, ?_, ?_⟩
  · intro c k v ttl now t h
    simp [MemoryCache.Get, MemoryCache.Set, mapSet, mapGet_cons_eq, not_lt.mpr h]
  · intro c k v ttl now t h
    simp [MemoryCache.Get, MemoryCache.Set, mapSet, mapGet_cons_eq, h]
  · intro c k v ttl now t httl hnow
    simp [MemoryCache.Get, MemoryCache.Set, mapSet, mapGet_cons_eq]
    omega
  · intro c k k' v ttl now t h
    simp only [MemoryCache.Get, MemoryCache.Set, mapSet,
      mapGet_cons_ne _ _ _ _ h, mapGet_filter_ne _ _ _ h]
  · intro k t
    rfl
  · intro c k t
    rfl
  · intro c k ts t hnd hts
    obtain ⟨entries⟩ := c
    simp only [MemoryCache.cleanupStep, MemoryCache.Get]
    induction entries with
    | nil => rfl
    | cons kv rest ih =>
      obtain ⟨k1, e1⟩ := kv
      simp only [List.map_cons, List.nodup_cons] at hnd
      by_cases hk : k = k1
      · subst hk
        by_cases hexp : e1.expiration < ts
        · rw [List.filter_cons_of_neg (by simpa using hexp)]
          rw [mapGet_cons_eq]
          rw [mapGet_filter_none _ _ _ hnd.1]
          have hlt : e1.expiration < t := by omega
          simp [hlt]
        · rw [List.filter_cons_of_pos (by simpa using hexp)]
          rw [mapGet_cons_eq, mapGet_cons_eq]
      · by_cases hexp : e1.expiration < ts
        · rw [List.filter_cons_of_neg (by simpa using hexp)]
          rw [mapGet_cons_ne _ _ _ _ hk]
          exact ih hnd.2
        · rw [List.filter_cons_of_pos (by simpa using hexp)]
          rw [mapGet_cons_ne _ _ _ _ hk, mapGet_cons_ne _ _ _ _ hk]
          exact ih hnd.2

/-- Witness for `C2_cache_ttl_semantics` at concrete instants: a value set
at `100` with TTL `60` is found at `160` and gone at `161`; a zero-TTL
entry is expired at `101`; an unrelated `Set` and a sweep tick leave reads
unchanged; empty and cleared caches are empty. -/
theorem C2_cache_ttl_semantics_witness :
    ((MemoryCache.mk []).Set "k" (CVal.vlist ["v1"]) 60 100).Get "k" 160
      = some (CVal.vlist ["v1"]) ∧
    ((MemoryCache.mk []).Set "k" (CVal.vlist ["v1"]) 60 100).Get "k" 161 = none ∧
    ((MemoryCache.mk []).Set "k" (CVal.vlist ["v1"]) 0 100).Get "k" 101 = none ∧
    (((MemoryCache.mk []).Set "k" (CVal.vlist ["v1"]) 60 100).Set "j" CVal.other 60 100).Get
        "k" 160
      = ((MemoryCache.mk []).Set "k" (CVal.vlist ["v1"]) 60 100).Get "k" 160 ∧
    (MemoryCache.mk []).Get "k" 160 = none ∧
    ((MemoryCache.mk []).Set "k" (CVal.vlist ["v1"]) 60 100).Clear.Get "k" 160 = none ∧
    (((MemoryCache.mk []).Set "k" (CVal.vlist ["v1"]) 60 100).cleanupStep 150).Get "k" 160
      = ((MemoryCache.mk []).Set "k" (CVal.vlist ["v1"]) 60 100).Get "k" 160 :=
  ⟨C2_cache_ttl_semantics.1 _ "k" _ 60 100 160 (by omega),
   C2_cache_ttl_semantics.2.1 _ "k" _ 60 100 161 (by omega),
   C2_cache_ttl_semantics.2.2.1 _ "k" _ 0 100 101 (by omega) (by omega),
   C2_cache_ttl_semantics.2.2.2.1 _ "k" "j" CVal.other 60 100 160 (by decide),
   C2_cache_ttl_semantics.2.2.2.2.1 "k" 160,
   C2_cache_ttl_semantics.2.2.2.2.2.1 _ "k" 160,
   C2_cache_ttl_semantics.2.2.2.2.2.2 _ "k" 150 160 (by decide) (by omega)⟩

/-! ## Path escaping (`escapePath` in `internal/proxy/client.go`, C6)

The Go function ranges over the runes of the path; an upper-case rune is
replaced by `'!'` plus the byte truncation of its lower-case form, any
other rune is truncated to a single byte (`byte(r)` is `r mod 256`).  The
output is the byte string handed to the URL.  `unicode.IsUpper` /
`unicode.ToLower` are modelled on code points below `0x100` (ASCII and
Latin-1, where upper-case is `A–Z` and `À–Þ` minus `×`, lower-case is
upper-case plus 32); every input appearing in a theorem below stays in
that range, where the model agrees with Go's Unicode tables. -/

def isUpperGo (c : Char) : Bool :=
  (65 ≤ c.toNat && c.toNat ≤ 90) ||
    (192 ≤ c.toNat && c.toNat ≤ 222 && c.toNat != 215)

def toLowerGo (c : Char) : Char :=
  if isUpperGo c then Char.ofNat (c.toNat + 32) else c

/-- Bytes emitted for one rune of the path. -/
def escapeChar (r : Char) : List Nat :=
  if isUpperGo r then [33, (toLowerGo r).toNat % 256] else [r.toNat % 256]

/-- Mirror of `escapePath`: the byte string built rune by rune. -/
def escapePath (path : String) : List Nat :=
  path.data.foldr (fun r acc => escapeChar r ++ acc) []

/-- UTF-8 encoding of one character (how an unchanged character actually
appears in a Go string's bytes). -/
def utf8Bytes (c : Char) : List Nat :=
  let n := c.toNat
  if n < 128 then [n]
  else if n < 2048 then [192 + n / 64, 128 + n % 64]
  else if n < 65536 then [224 + n / 4096, 128 + n / 64 % 64, 128 + n % 64]
  else [240 + n / 262144, 128 + n / 4096 % 64, 128 + n / 64 % 64, 128 + n % 64]

/-- Modelled from the spec's words (the escaping rule of §4.2): every
upper-case ASCII letter becomes the escape marker followed by its
lower-case form; every other character — non-ASCII included — passes
through unchanged, i.e. its UTF-8 bytes are emitted as-is. -/
def escapePathSpec (path : String) : List Nat :=
  path.data.foldr (fun r acc =>
    (if 65 ≤ r.toNat ∧ r.toNat ≤ 90 then [33, r.toNat + 32] else utf8Bytes r) ++ acc) []

theorem char_toNat_ofNat (n : Nat) (h : n < 55296) : (Char.ofNat n).toNat = n := by
  have hv : n.isValidChar := Or.inl h
  simp [Char.ofNat, hv, Char.ofNatAux, Char.toNat, UInt32.ofNat, UInt32.toNat,
    BitVec.toNat_ofNat]

/-- C6, refuting the claim as stated: on the one-character path `"é"`
(code point 233) the code truncates the rune to the single byte 233,
whereas the spec's rule preserves the character, whose bytes in the URL
string are its UTF-8 encoding `[195, 169]` — so non-ASCII characters are
not passed through unchanged. -/
theorem C6_counterexample :
    escapePath "é" = [233] ∧ escapePathSpec "é" = [195, 169] ∧
    escapePath "é" ≠ escapePathSpec "é" := by
  refine ⟨by decide, by decide, by decide⟩

/-- C6 (amended): for every ASCII module path (all code points below 128),
the escaped path is obtained by replacing each upper-case ASCII letter with
the escape marker `'!'` followed by that letter's lower-case form and
passing every other character through unchanged; on non-ASCII characters
the code instead truncates the rune to one byte, see `C6_counterexample`. -/
theorem C6_escapePath_ascii (path : String)
    (h : ∀ c ∈ path.data, c.toNat < 128) :
    escapePath path = escapePathSpec path := by
  unfold escapePath escapePathSpec
  revert h
  generalize path.data = l
  intro h
  induction l with
  | nil => rfl
  | cons c cs ih =>
    have hc : c.toNat < 128 := h c (List.mem_cons_self _ _)
    have ih' := ih (fun x hx => h x (List.mem_cons_of_mem _ hx))
    simp only [List.foldr_cons, ih']
    congr 1
    by_cases hu : 65 ≤ c.toNat ∧ c.toNat ≤ 90
    · have hub : isUpperGo c = true := by
        simp only [isUpperGo, Bool.or_eq_true, Bool.and_eq_true, decide_eq_true_eq]
        left
        exact ⟨by omega, by omega⟩
      have hlow : (toLowerGo c).toNat = c.toNat + 32 := by
        rw [toLowerGo, if_pos hub]
        exact char_toNat_ofNat _ (by omega)
      rw [escapeChar, if_pos hub, if_pos hu, hlow, Nat.mod_eq_of_lt (by omega)]
    · have hub : isUpperGo c = false := by
        simp only [isUpperGo, Bool.or_eq_false_iff, Bool.and_eq_false_iff]
        constructor
        · rcases Nat.lt_or_ge c.toNat 65 with hlt | hge
          · left
            simpa using by omega
          · right
            have : ¬ c.toNat ≤ 90 := by omega
            simpa using this
        · left
          simpa using by omega
      rw [escapeChar, if_neg (by simp [hub]), if_neg hu, Nat.mod_eq_of_lt (by omega),
        utf8Bytes]
      simp [hc]

/-- Witness for `C6_escapePath_ascii` on a concrete mixed-case ASCII path. -/
theorem C6_escapePath_ascii_witness :
    escapePath "GitHub.Com/Foo" = escapePathSpec "GitHub.Com/Foo" :=
  C6_escapePath_ascii "GitHub.Com/Foo" (by decide)

/-! ## The registry client (`internal/proxy/client.go`)

The HTTP layer is an environment: `responder` stands for one round trip of
`doRequest` after admission (its `Except` already carrying transport
failures and non-200 statuses), `decodeInfo` stands for `json.Unmarshal`
into `VersionInfo`.  The `cancelled` flag means the caller's context was
done before an admission-gate slot was granted, i.e. the `<-ctx.Done()`
branch of the `select` was taken.  Each operation takes and returns the
cache and additionally returns the list of URLs actually requested, so
that "no network I/O" is statable.  TTLs are in seconds (5 minutes = 300,
1 hour = 3600). -/

/-- Mirror of `unicode.IsSpace` on the code points it can see here:
ASCII whitespace plus NEL and NBSP. -/
def isSpaceGo (c : Char) : Bool :=
  c == ' ' || c == '\t' || c == '\n' || c == '\x0B' || c == '\x0C' || c == '\r' ||
    c == '\u0085' || c == '\u00A0'

/-- Mirror of `strings.TrimSpace`: drop leading and trailing whitespace. -/
def goTrimSpace (s : String) : String :=
  String.mk (((s.data.dropWhile isSpaceGo).reverse.dropWhile isSpaceGo).reverse)

/-- Mirror of `strings.Split(·, "\n")` on character lists: `n` separators
yield `n + 1` fields; the empty input yields one empty field. -/
def splitNL : List Char → List (List Char)
  | [] => [[]]
  | c :: rest =>
    let r := splitNL rest
    if c = '\n' then [] :: r
    else
      match r with
      | [] => [[c]]
      | l :: ls => (c :: l) :: ls

/-- The version list computed from a response body:
`strings.Split(strings.TrimSpace(body), "\n")`. -/
def versionsOfBody (body : String) : List String :=
  (splitNL (goTrimSpace body).data).map String.mk

/-- Failure taxonomy of the client. -/
inductive ProxyErr where
  | cancelled
  | transport (msg : String)
  | status (code : Nat) (body : String)
  | decode
deriving Repr, DecidableEq

/-- The client's external collaborators. -/
structure Env where
  responder : String → Except ProxyErr String
  decodeInfo : String → Option VersionInfo

/-- Rendering of the escaped path as the string spliced into URLs. -/
def escapePathS (path : String) : String :=
  String.mk ((escapePath path).map Char.ofNat)

def latestURL (baseURL p : String) : String :=
  baseURL ++ "/" ++ escapePathS p ++ "/@latest"

def listURL (baseURL p : String) : String :=
  baseURL ++ "/" ++ escapePathS p ++ "/@v/list"

def infoURL (baseURL p v : String) : String :=
  baseURL ++ "/" ++ escapePathS p ++ "/@v/" ++ v ++ ".info"

def modURL (baseURL p v : String) : String :=
  baseURL ++ "/" ++ escapePathS p ++ "/@v/" ++ v ++ ".mod"

/-- Mirror of `doRequest`: if the caller's cancellation fired before a
semaphore slot was granted, fail with the context's error and issue
nothing; otherwise perform exactly one request. -/
def doRequest (env : Env) (cancelled : Bool) (url : String) :
    Except ProxyErr String × List String :=
  if cancelled then (Except.error ProxyErr.cancelled, [])
  else
    match env.responder url with
    | Except.error e => (Except.error e, [url])
    | Except.ok body => (Except.ok body, [url])

/-- Mirror of `Client.Latest`: consult the cache under `path@latest`
(treating a value of the wrong dynamic type as a miss), on a miss fetch
`{base}/{escapedPath}/@latest`, decode, populate the cache with a 5-minute
TTL, and return. -/
def Latest (env : Env) (baseURL : String) (cancelled : Bool) (c : MemoryCache)
    (now : Int) (modulePath : String) :
    Except ProxyErr VersionInfo × MemoryCache × List String :=
  let cacheKey := modulePath ++ "@latest"
  match c.Get cacheKey now with
  | some (CVal.vinfo info) => (Except.ok info, c, [])
  | _ =>
    match doRequest env cancelled (latestURL baseURL modulePath) with
    | (Except.error e, log) => (Except.error e, c, log)
    | (Except.ok body, log) =>
      match env.decodeInfo body with
      | none => (Except.error ProxyErr.decode, c, log)
      | some info => (Except.ok info, c.Set cacheKey (CVal.vinfo info) 300 now, log)

/-- Mirror of `Client.Versions`: cache key `path@list`; the response body is
whitespace-trimmed and split on newlines (no decode failure possible). -/
def Versions (env : Env) (baseURL : String) (cancelled : Bool) (c : MemoryCache)
    (now : Int) (modulePath : String) :
    Except ProxyErr (List String) × MemoryCache × List String :=
  let cacheKey := modulePath ++ "@list"
  match c.Get cacheKey now with
  | some (CVal.vlist versions) => (Except.ok versions, c, [])
  | _ =>
    match doRequest env cancelled (listURL baseURL modulePath) with
    | (Except.error e, log) => (Except.error e, c, log)
    | (Except.ok body, log) =>
      let versions := versionsOfBody body
      (Except.ok versions, c.Set cacheKey (CVal.vlist versions) 300 now, log)

/-- Mirror of `Client.Info`: cache key `path@version`, 1-hour TTL. -/
def Info (env : Env) (baseURL : String) (cancelled : Bool) (c : MemoryCache)
    (now : Int) (modulePath version : String) :
    Except ProxyErr VersionInfo × MemoryCache × List String :=
  let cacheKey := modulePath ++ "@" ++ version
  match c.Get cacheKey now with
  | some (CVal.vinfo info) => (Except.ok info, c, [])
  | _ =>
    match doRequest env cancelled (infoURL baseURL modulePath version) with
    | (Except.error e, log) => (Except.error e, c, log)
    | (Except.ok body, log) =>
      match env.decodeInfo body with
      | none => (Except.error ProxyErr.decode, c, log)
      | some info => (Except.ok info, c.Set cacheKey (CVal.vinfo info) 3600 now, log)

/-- Mirror of `Client.GetModFile`: cache key `path@version.mod`, raw bytes,
1-hour TTL. -/
def GetModFile (env : Env) (baseURL : String) (cancelled : Bool) (c : MemoryCache)
    (now : Int) (modulePath version : String) :
    Except ProxyErr String × MemoryCache × List String :=
  let cacheKey := modulePath ++ "@" ++ version ++ ".mod"
  match c.Get cacheKey now with
  | some (CVal.modBytes data) => (Except.ok data, c, [])
  | _ =>
    match doRequest env cancelled (modURL baseURL modulePath version) with
    | (Except.error e, log) => (Except.error e, c, log)
    | (Except.ok data, log) =>
      (Except.ok data, c.Set cacheKey (CVal.modBytes data) 3600 now, log)

/-- Without prior cancellation, `doRequest` issues exactly one request. -/
theorem doRequest_log (env : Env) (url : String) :
    (doRequest env false url).2 = [url] := by
  unfold doRequest
  cases env.responder url <;> simp

/-! Cache-check fallthrough: whenever the cached value is absent or has the
wrong dynamic type, each operation proceeds exactly as on a miss. -/

theorem Latest_fallthrough (env : Env) (baseURL : String) (cancelled : Bool)
    (c : MemoryCache) (now : Int) (p : String)
    (h : ∀ i, c.Get (p ++ "@latest") now ≠ some (CVal.vinfo i)) :
    Latest env baseURL cancelled c now p
      = (match doRequest env cancelled (latestURL baseURL p) with
         | (Except.error e, log) => (Except.error e, c, log)
         | (Except.ok body, log) =>
           match env.decodeInfo body with
           | none => (Except.error ProxyErr.decode, c, log)
           | some info =>
             (Except.ok info, c.Set (p ++ "@latest") (CVal.vinfo info) 300 now, log)) := by
  unfold Latest
  dsimp only
  cases hc : c.Get (p ++ "@latest") now with
  | none => rfl
  | some w =>
    cases w with
    | vinfo i => exact absurd hc (h i)
    | vlist l => rfl
    | modBytes b => rfl
    | other => rfl

theorem Versions_fallthrough (env : Env) (baseURL : String) (cancelled : Bool)
    (c : MemoryCache) (now : Int) (p : String)
    (h : ∀ l, c.Get (p ++ "@list") now ≠ some (CVal.vlist l)) :
    Versions env baseURL cancelled c now p
      = (match doRequest env cancelled (listURL baseURL p) with
         | (Except.error e, log) => (Except.error e, c, log)
         | (Except.ok body, log) =>
           (Except.ok (versionsOfBody body),
            c.Set (p ++ "@list") (CVal.vlist (versionsOfBody body)) 300 now, log)) := by
  unfold Versions
  dsimp only
  cases hc : c.Get (p ++ "@list") now with
  | none => rfl
  | some w =>
    cases w with
    | vinfo i => rfl
    | vlist l => exact absurd hc (h l)
    | modBytes b => rfl
    | other => rfl

theorem Info_fallthrough (env : Env) (baseURL : String) (cancelled : Bool)
    (c : MemoryCache) (now : Int) (p v : String)
    (h : ∀ i, c.Get (p ++ "@" ++ v) now ≠ some (CVal.vinfo i)) :
    Info env baseURL cancelled c now p v
      = (match doRequest env cancelled (infoURL baseURL p v) with
         | (Except.error e, log) => (Except.error e, c, log)
         | (Except.ok body, log) =>
           match env.decodeInfo body with
           | none => (Except.error ProxyErr.decode, c, log)
           | some info =>
             (Except.ok info, c.Set (p ++ "@" ++ v) (CVal.vinfo info) 3600 now, log)) := by
  unfold Info
  dsimp only
  cases hc : c.Get (p ++ "@" ++ v) now with
  | none => rfl
  | some w =>
    cases w with
    | vinfo i => exact absurd hc (h i)
    | vlist l => rfl
    | modBytes b => rfl
    | other => rfl

theorem GetModFile_fallthrough (env : Env) (baseURL : String) (cancelled : Bool)
    (c : MemoryCache) (now : Int) (p v : String)
    (h : ∀ b, c.Get (p ++ "@" ++ v ++ ".mod") now ≠ some (CVal.modBytes b)) :
    GetModFile env baseURL cancelled c now p v
      = (match doRequest env cancelled (modURL baseURL p v) with
         | (Except.error e, log) => (Except.error e, c, log)
         | (Except.ok data, log) =>
           (Except.ok data,
            c.Set (p ++ "@" ++ v ++ ".mod") (CVal.modBytes data) 3600 now, log)) := by
  unfold GetModFile
  dsimp only
  cases hc : c.Get (p ++ "@" ++ v ++ ".mod") now with
  | none => rfl
  | some w =>
    cases w with
    | vinfo i => rfl
    | vlist l => rfl
    | modBytes b => exact absurd hc (h b)
    | other => rfl

/-- C5: for each of the four fetch operations, if the cache misses and the
caller's cancellation fired before an admission slot was granted, the call
returns the cancellation error, issues no HTTP request (empty request log),
and returns the cache unchanged. -/
theorem C5_cancelled_no_side_effects :
    ∀ (env : Env) (baseURL : String) (c : MemoryCache) (now : Int) (p v : String),
      (c.Get (p ++ "@latest") now = none →
        Latest env baseURL true c now p = (Except.error ProxyErr.cancelled, c, [])) ∧
      (c.Get (p ++ "@list") now = none →
        Versions env baseURL true c now p = (Except.error ProxyErr.cancelled, c, [])) ∧
      (c.Get (p ++ "@" ++ v) now = none →
        Info env baseURL true c now p v = (Except.error ProxyErr.cancelled, c, [])) ∧
      (c.Get (p ++ "@" ++ v ++ ".mod") now = none →
        GetModFile env baseURL true c now p v
          = (Except.error ProxyErr.cancelled, c, [])) := by
  intro env baseURL c now p v
  refine ⟨?_, ?_, ?_, ?_⟩
  · intro h
    rw [Latest_fallthrough env baseURL true c now p (fun i => by rw [h]; intro hc; cases hc)]
    rfl
  · intro h
    rw [Versions_fallthrough env baseURL true c now p (fun l => by rw [h]; intro hc; cases hc)]
    rfl
  · intro h
    rw [Info_fallthrough env baseURL true c now p v (fun i => by rw [h]; intro hc; cases hc)]
    rfl
  · intro h
    rw [GetModFile_fallthrough env baseURL true c now p v
      (fun b => by rw [h]; intro hc; cases hc)]
    rfl

/-- Environment answering every request with an empty body and never
decoding. -/
def envEmptyBody : Env := ⟨fun _ => Except.ok "", fun _ => none⟩

/-- Witness for `C5_cancelled_no_side_effects` on the empty cache. -/
theorem C5_cancelled_no_side_effects_witness :
    Latest envEmptyBody "https://proxy.golang.org" true (MemoryCache.mk []) 0 "example.com/m"
      = (Except.error ProxyErr.cancelled, MemoryCache.mk [], []) ∧
    GetModFile envEmptyBody "https://proxy.golang.org" true (MemoryCache.mk []) 0
        "example.com/m" "v1.0.0"
      = (Except.error ProxyErr.cancelled, MemoryCache.mk [], []) :=
  ⟨(C5_cancelled_no_side_effects envEmptyBody "https://proxy.golang.org"
      (MemoryCache.mk []) 0 "example.com/m" "v1.0.0").1 rfl,
   (C5_cancelled_no_side_effects envEmptyBody "https://proxy.golang.org"
      (MemoryCache.mk []) 0 "example.com/m" "v1.0.0").2.2.2 rfl⟩

/-- C8: on a cache miss, a successful `Versions` response with body `b`
yields exactly `strings.Split(strings.TrimSpace(b), "\n")`; in particular an
empty body yields the one-element list containing the empty string, not an
empty list. -/
theorem C8_versions_empty_body :
    (∀ (env : Env) (baseURL : String) (c : MemoryCache) (now : Int) (p body : String),
      c.Get (p ++ "@list") now = none →
      env.responder (listURL baseURL p) = Except.ok body →
      (Versions env baseURL false c now p).1 = Except.ok (versionsOfBody body)) ∧
    versionsOfBody "" = [""] ∧ (versionsOfBody "").length = 1 := by
  refine ⟨?_, by decide, by decide⟩
  intro env baseURL c now p body hmiss hresp
  rw [Versions_fallthrough env baseURL false c now p
    (fun l => by rw [hmiss]; intro hc; cases hc)]
  simp [doRequest, hresp]

/-- Witness for `C8_versions_empty_body`: against an empty-body responder
the operation returns `[""]`. -/
theorem C8_versions_empty_body_witness :
    (Versions envEmptyBody "https://proxy.golang.org" false (MemoryCache.mk []) 0
        "example.com/m").1
      = Except.ok (versionsOfBody "") ∧ versionsOfBody "" = [""] :=
  ⟨C8_versions_empty_body.1 envEmptyBody "https://proxy.golang.org" (MemoryCache.mk []) 0
      "example.com/m" "" rfl rfl,
   C8_versions_empty_body.2.1⟩

/-- C9: for each of the four fetch operations, a cached value of the wrong
dynamic type is silently treated as a cache miss: the operation proceeds to
the network (its request log is exactly the operation's URL), and a
successful fetch-and-decode yields a successful result — the miscast never
surfaces as an error. -/
theorem C9_miscast_treated_as_miss :
    ∀ (env : Env) (baseURL : String) (c : MemoryCache) (now : Int) (p v : String)
      (w : CVal),
      (c.Get (p ++ "@latest") now = some w → (∀ i, w ≠ CVal.vinfo i) →
        (Latest env baseURL false c now p).2.2 = [latestURL baseURL p] ∧
        ∀ body info, env.responder (latestURL baseURL p) = Except.ok body →
          env.decodeInfo body = some info →
          (Latest env baseURL false c now p).1 = Except.ok info) ∧
      (c.Get (p ++ "@list") now = some w → (∀ l, w ≠ CVal.vlist l) →
        (Versions env baseURL false c now p).2.2 = [listURL baseURL p] ∧
        ∀ body, env.responder (listURL baseURL p) = Except.ok body →
          (Versions env baseURL false c now p).1 = Except.ok (versionsOfBody body)) ∧
      (c.Get (p ++ "@" ++ v) now = some w → (∀ i, w ≠ CVal.vinfo i) →
        (Info env baseURL false c now p v).2.2 = [infoURL baseURL p v] ∧
        ∀ body info, env.responder (infoURL baseURL p v) = Except.ok body →
          env.decodeInfo body = some info →
          (Info env baseURL false c now p v).1 = Except.ok info) ∧
      (c.Get (p ++ "@" ++ v ++ ".mod") now = some w → (∀ b, w ≠ CVal.modBytes b) →
        (GetModFile env baseURL false c now p v).2.2 = [modURL baseURL p v] ∧
        ∀ body, env.responder (modURL baseURL p v) = Except.ok body →
          (GetModFile env baseURL false c now p v).1 = Except.ok body) := by
  intro env baseURL c now p v w
  refine ⟨?_, ?_, ?_, ?_⟩
  · intro hget hw
    rw [Latest_fallthrough env baseURL false c now p
      (fun i => by rw [hget]; intro hc; cases hc; exact hw i rfl)]
    constructor
    · cases hre : env.responder (latestURL baseURL p) with
      | error e => simp [doRequest, hre]
      | ok body =>
        cases hde : env.decodeInfo body with
        | none => simp [doRequest, hre, hde]
        | some info => simp [doRequest, hre, hde]
    · intro body info hresp hdec
      simp [doRequest, hresp, hdec]
  · intro hget hw
    rw [Versions_fallthrough env baseURL false c now p
      (fun l => by rw [hget]; intro hc; cases hc; exact hw l rfl)]
    constructor
    · cases hre : env.responder (listURL baseURL p) with
      | error e => simp [doRequest, hre]
      | ok body => simp [doRequest, hre]
    · intro body hresp
      simp [doRequest, hresp]
  · intro hget hw
    rw [Info_fallthrough env baseURL false c now p v
      (fun i => by rw [hget]; intro hc; cases hc; exact hw i rfl)]
    constructor
    · cases hre : env.responder (infoURL baseURL p v) with
      | error e => simp [doRequest, hre]
      | ok body =>
        cases hde : env.decodeInfo body with
        | none => simp [doRequest, hre, hde]
        | some info => simp [doRequest, hre, hde]
    · intro body info hresp hdec
      simp [doRequest, hresp, hdec]
  · intro hget hw
    rw [GetModFile_fallthrough env baseURL false c now p v
      (fun b => by rw [hget]; intro hc; cases hc; exact hw b rfl)]
    constructor
    · cases hre : env.responder (modURL baseURL p v) with
      | error e => simp [doRequest, hre]
      | ok body => simp [doRequest, hre]
    · intro body hresp
      simp [doRequest, hresp]

/-- Cache holding a wrongly-typed value under each of the four keys the
operations consult for module `m` at version `v1`. -/
def cacheMiscast : MemoryCache :=
  ⟨[("m@latest", ⟨CVal.other, 1000⟩), ("m@list", ⟨CVal.other, 1000⟩),
    ("m@v1", ⟨CVal.other, 1000⟩), ("m@v1.mod", ⟨CVal.other, 1000⟩)]⟩

/-- Environment whose responder succeeds with a fixed body that decodes. -/
def envDecoding : Env := ⟨fun _ => Except.ok "vbody", fun _ => some ⟨"v2.0.0", 5⟩⟩

/-- Witness for `C9_miscast_treated_as_miss` on `cacheMiscast`: `Latest`
fetches its URL and succeeds, and `GetModFile` returns the fetched body. -/
theorem C9_miscast_treated_as_miss_witness :
    (Latest envDecoding "b" false cacheMiscast 0 "m").2.2 = [latestURL "b" "m"] ∧
    (Latest envDecoding "b" false cacheMiscast 0 "m").1
      = Except.ok (⟨"v2.0.0", 5⟩ : VersionInfo) ∧
    (GetModFile envDecoding "b" false cacheMiscast 0 "m" "v1").1 = Except.ok "vbody" :=
  ⟨((C9_miscast_treated_as_miss envDecoding "b" cacheMiscast 0 "m" "v1" CVal.other).1
      (by decide) (fun i h => by cases h)).1,
   ((C9_miscast_treated_as_miss envDecoding "b" cacheMiscast 0 "m" "v1" CVal.other).1
      (by decide) (fun i h => by cases h)).2 "vbody" ⟨"v2.0.0", 5⟩ rfl rfl,
   ((C9_miscast_treated_as_miss envDecoding "b" cacheMiscast 0 "m" "v1" CVal.other).2.2.2
      (by decide) (fun b h => by cases h)).2 "vbody" rfl⟩

end GxSpec
